import Mathlib

set_option maxRecDepth 4000

namespace Azul

/-! Shallow embedding of the azul sync daemon's core (TypeScript sources under
`src/`).  JavaScript `Map`s are modelled as insertion-ordered association
lists, object references as guid keys into the store, and mutation as
whole-store functional update.  Filesystem paths are modelled as segment
lists relative to the process working directory. -/

/-- Association map keyed by strings, keeping JS `Map` insertion order. -/
abbrev AMap (α : Type) := List (String × α)

/-- JS `Map.get`. -/
def mapGet {α : Type} : AMap α → String → Option α
  | [], _ => none
  | (k', v) :: m, k => if k' = k then some v else mapGet m k

/-- JS `Map.has`. -/
def mapContains {α : Type} : AMap α → String → Bool
  | [], _ => false
  | (k', _) :: m, k => k' = k || mapContains m k

/-- Replace the value stored under an existing key, keeping its position. -/
def mapReplace {α : Type} : AMap α → String → α → AMap α
  | [], _, _ => []
  | (k', v') :: m, k, v =>
    if k' = k then (k, v) :: mapReplace m k v else (k', v') :: mapReplace m k v

/-- JS `Map.set`: update in place when the key exists, else append. -/
def mapSet {α : Type} (m : AMap α) (k : String) (v : α) : AMap α :=
  if mapContains m k then mapReplace m k v else m ++ [(k, v)]

/-- JS `Map.delete`. -/
def mapDelete {α : Type} : AMap α → String → AMap α
  | [], _ => []
  | (k', v') :: m, k => if k' = k then mapDelete m k else (k', v') :: mapDelete m k

/-- Apply a function to the value stored under a key (in-place object mutation). -/
def updateN {α : Type} : AMap α → String → (α → α) → AMap α
  | [], _, _ => []
  | (k', v) :: m, k, f =>
    if k' = k then (k', f v) :: updateN m k f else (k', v) :: updateN m k f

/-- InstanceData from src/src/ipc/messages (one entry of a snapshot or update). -/
structure InstanceData where
  guid : String
  className : String
  name : String
  path : List String
  source : Option String
deriving Repr, DecidableEq

/-- TreeNode from src/src/fs/treeManager.ts.  The mutable `children` map is
the insertion-ordered list of child guids and the `parent` back-reference is
an optional guid. -/
structure TreeNode where
  guid : String
  className : String
  name : String
  path : List String
  source : Option String
  children : List String
  parent : Option String
deriving Repr, DecidableEq

abbrev NodeMap := AMap TreeNode

/-- TreeManager state: `nodes` index plus the lazily created synthetic root. -/
structure TreeManager where
  nodes : NodeMap
  root : Option String
deriving Repr, DecidableEq

/-- The lazily created synthetic root node of `TreeManager`. -/
def rootNode : TreeNode :=
  { guid := "root", className := "DataModel", name := "game", path := [],
    source := none, children := [], parent := none }

/-- Create the synthetic root if it does not exist yet. -/
def ensureRoot (st : TreeManager) : TreeManager :=
  match st.root with
  | some _ => st
  | none => ⟨mapSet st.nodes "root" rootNode, some "root"⟩

/-- TreeManager.findNodeByPath: linear scan over `nodes.values()` comparing
the (JSON-stringified, hence listwise) logical path. -/
def findNodeByPath : NodeMap → List String → Option (String × TreeNode)
  | [], _ => none
  | (k, n) :: m, path => if n.path = path then some (k, n) else findNodeByPath m path

/-- Add a guid to a children map (`children.set(guid, node)`): appending when
absent, keeping position when present. -/
def childAdd (g : String) (n : TreeNode) : TreeNode :=
  if n.children.contains g then n else { n with children := n.children ++ [g] }

/-- Remove a guid from a children map (`children.delete(guid)`). -/
def childDel (g : String) (n : TreeNode) : TreeNode :=
  { n with children := n.children.filter (fun c => c ≠ g) }

/-- Attach the node stored under `g` to the parent stored under `pg`. -/
def attachTo (st : TreeManager) (pg g : String) : TreeManager :=
  let m := updateN st.nodes pg (childAdd g)
  ⟨updateN m g (fun n => { n with parent := some pg }), st.root⟩

/-- Shared attach step: place the node stored under g below the synthetic
root when the path has a single segment, else below the node found by the
path's prefix; a missing parent leaves the node where it is (orphaned).
This is the common tail of TreeManager.reparentNode and of the second pass
of TreeManager.applyFullSnapshot. -/
def reparentAttach (st : TreeManager) (g : String) (path : List String) : TreeManager :=
  if path.length = 1 then
    attachTo (ensureRoot st) "root" g
  else
    match findNodeByPath st.nodes path.dropLast with
    | some (pg, _) => attachTo st pg g
    | none => st

/-- TreeManager.reparentNode: remove the node from its old parent's children
map, then attach under the node found by the new path's prefix. -/
def reparentNode (st : TreeManager) (g : String) (path : List String) : TreeManager :=
  match mapGet st.nodes g with
  | none => st
  | some node =>
    match node.parent with
    | some pg => reparentAttach ⟨updateN st.nodes pg (childDel g), st.root⟩ g path
    | none => reparentAttach st g path

/-- TreeManager.applyFullSnapshot: clear, create all nodes (first pass), then
attach each to the parent found by its path prefix (second pass). -/
def applyFullSnapshot (instances : List InstanceData) : TreeManager :=
  let pass1 : NodeMap := instances.foldl
    (fun m i => mapSet m i.guid
      { guid := i.guid, className := i.className, name := i.name,
        path := i.path, source := i.source, children := [], parent := none }) []
  instances.foldl
    (fun st i =>
      match mapGet st.nodes i.guid with
      | none => st
      | some _ => reparentAttach st i.guid i.path)
    ⟨pass1, none⟩

/-- TreeManager.updateInstance: upsert by guid; replace name/class/path/source
in place, and reparent when the path or the name changed (both change flags
are computed against the node's fields before the in-place update). -/
def updateInstance (st : TreeManager) (inst : InstanceData) : TreeManager :=
  match mapGet st.nodes inst.guid with
  | some existing =>
    if existing.path ≠ inst.path ∨ existing.name ≠ inst.name then
      reparentNode
        ⟨updateN st.nodes inst.guid (fun n =>
          { n with className := inst.className, name := inst.name,
                   path := inst.path, source := inst.source }), st.root⟩
        inst.guid inst.path
    else
      ⟨updateN st.nodes inst.guid (fun n =>
        { n with className := inst.className, name := inst.name,
                 path := inst.path, source := inst.source }), st.root⟩
  | none =>
    reparentNode
      ⟨mapSet st.nodes inst.guid
        { guid := inst.guid, className := inst.className, name := inst.name,
          path := inst.path, source := inst.source, children := [],
          parent := none }, st.root⟩
      inst.guid inst.path

/-- TreeManager.updateScriptSource: set the source body of an existing node. -/
def updateScriptSource (st : TreeManager) (g : String) (source : String) : TreeManager :=
  match mapGet st.nodes g with
  | some _ => ⟨updateN st.nodes g (fun n => { n with source := some source }), st.root⟩
  | none => st

/-- The first two steps of TreeManager.deleteInstance: remove the node from
its parent's children map (when it has a parent), then drop it from the
guid index. -/
def detachRemove (st : TreeManager) (g : String) (node : TreeNode) : TreeManager :=
  ⟨mapDelete
    (match node.parent with
     | some pg => updateN st.nodes pg (childDel g)
     | none => st.nodes) g, st.root⟩

/-- TreeManager.deleteInstance, fuelled: detach from the parent, drop the node
from the index, then recursively delete every child.  The fuel only bounds the
recursion depth; `deleteInstance` passes the store size, which always
suffices because each recursion level first removes a node. -/
def deleteFuel : Nat → TreeManager → String → TreeManager × Option TreeNode
  | 0, st, _ => (st, none)
  | fuel + 1, st, g =>
    match mapGet st.nodes g with
    | none => (st, none)
    | some node =>
      (node.children.foldl (fun s c => (deleteFuel fuel s c).1)
        (detachRemove st g node), some node)

/-- The recursive child-deletion loop of deleteInstance, as a fold. -/
def deleteList (fuel : Nat) (st : TreeManager) (cs : List String) : TreeManager :=
  cs.foldl (fun s c => (deleteFuel fuel s c).1) st

/-- TreeManager.deleteInstance: remove a node and, recursively, all of its
descendants; returns the removed node (as read at entry). -/
def deleteInstance (st : TreeManager) (g : String) : TreeManager × Option TreeNode :=
  deleteFuel st.nodes.length st g

/-- A guid is present in the store's index. -/
def alive (st : TreeManager) (g : String) : Prop := (mapGet st.nodes g).isSome = true

/-- The children list of the node stored under a guid (empty when absent). -/
def childrenOf (st : TreeManager) (g : String) : List String :=
  match mapGet st.nodes g with
  | some n => n.children
  | none => []

/-- A chain of child edges from a to g through the listed guids; every node
on the chain is required to be present in the index. -/
def Chain (st : TreeManager) : String → List String → String → Prop
  | a, [], g => a = g ∧ alive st a
  | a, x :: l, g => alive st a ∧ x ∈ childrenOf st a ∧ Chain st x l g

instance instDecidableAlive (st : TreeManager) (g : String) :
    Decidable (alive st g) :=
  inferInstanceAs (Decidable (_ = true))

instance instDecidableChain (st : TreeManager) (a : String) (l : List String)
    (g : String) : Decidable (Chain st a l g) :=
  match l with
  | [] => inferInstanceAs (Decidable (_ ∧ _))
  | x :: l' =>
    have := instDecidableChain st x l' g
    inferInstanceAs (Decidable (_ ∧ _ ∧ _))

/-- g is a descendant of a (or a itself) through children-map edges. -/
def Reach (st : TreeManager) (a g : String) : Prop := ∃ l, Chain st a l g

/-- What one deleteInstance call guarantees: the store only shrinks, edges
between surviving nodes survive, surviving nodes keep all fields but their
children, deleted nodes are detached from their parents' children maps, and
the deleted guids are exactly those reachable from the target. -/
structure DeleteOk (st st' : TreeManager) (g : String) : Prop where
  lenLe : st'.nodes.length ≤ st.nodes.length
  ant : ∀ x, alive st' x → alive st x
  shrink : ∀ x c, c ∈ childrenOf st' x → c ∈ childrenOf st x
  survive : ∀ x c, alive st' x → alive st' c → c ∈ childrenOf st x →
    c ∈ childrenOf st' x
  fields : ∀ x n', mapGet st'.nodes x = some n' →
    ∃ n, mapGet st.nodes x = some n ∧ n' = { n with children := n'.children }
  detached : ∀ h hn pg, alive st h → ¬ alive st' h →
    mapGet st.nodes h = some hn → hn.parent = some pg → h ∉ childrenOf st' pg
  reachDead : ∀ h, Reach st g h → ¬ alive st' h
  deadReach : ∀ h, alive st h → ¬ alive st' h → Reach st g h

/-- What the child-deletion loop guarantees, relative to the list of roots it
deletes. -/
structure DeleteListOk (st st' : TreeManager) (cs : List String) : Prop where
  lenLe : st'.nodes.length ≤ st.nodes.length
  ant : ∀ x, alive st' x → alive st x
  shrink : ∀ x c, c ∈ childrenOf st' x → c ∈ childrenOf st x
  survive : ∀ x c, alive st' x → alive st' c → c ∈ childrenOf st x →
    c ∈ childrenOf st' x
  fields : ∀ x n', mapGet st'.nodes x = some n' →
    ∃ n, mapGet st.nodes x = some n ∧ n' = { n with children := n'.children }
  detached : ∀ h hn pg, alive st h → ¬ alive st' h →
    mapGet st.nodes h = some hn → hn.parent = some pg → h ∉ childrenOf st' pg
  reachDead : ∀ h c, c ∈ cs → Reach st c h → ¬ alive st' h
  deadReach : ∀ h, alive st h → ¬ alive st' h → ∃ c ∈ cs, Reach st c h

/-! Identity and path codec: PushCommand.classifyScript (src/src/push.ts; the
copy in src/src/snapshot/rojo.ts is identical) and FileWriter's encoding
(getScriptFileName / getFilePath / sanitizeName in the fileWriter part of
src/src/fs).  Filenames are modelled as character lists. -/

abbrev FName := List Char

/-- JS String.prototype.endsWith on character lists. -/
def endsWithL (f suffix : FName) : Bool :=
  f.reverse.take suffix.length == suffix.reverse

/-- Case-insensitive suffix test, as performed by the $-anchored regexes
with the i flag (ASCII case folding; the patterns are lowercase). -/
def endsWithCI (f suffix : FName) : Bool :=
  endsWithL (f.map Char.toLower) suffix

/-- Drop the last n characters: the effect of replacing an n-character
$-anchored regex match by the empty string. -/
def dropSuffixL (f : FName) (n : Nat) : FName :=
  f.take (f.length - n)

/-- classifyScript: rewrite a trailing ".lua" to ".luau", strip the ".luau"
extension, then decide the class by the remaining suffix.  Returns the
className and the script name. -/
def classifyScript (fileName : FName) : String × FName :=
  let normalized :=
    if endsWithCI fileName ".lua".data then dropSuffixL fileName 4 ++ ".luau".data
    else fileName
  let base :=
    if endsWithCI normalized ".luau".data then dropSuffixL normalized 5 else normalized
  if endsWithL base ".server".data then ("Script", dropSuffixL base 7)
  else if endsWithL base ".client".data then ("LocalScript", dropSuffixL base 7)
  else if endsWithL base ".module".data then ("ModuleScript", dropSuffixL base 7)
  else ("ModuleScript", base)

/-- config.scriptExtension (src/src/config.ts). -/
def scriptExtension : String := ".luau"

/-- FileWriter.isScriptNode and SyncDaemon.isScriptClass. -/
def isScriptClassName (c : String) : Bool :=
  c == "Script" || c == "LocalScript" || c == "ModuleScript"

/-- FileWriter.sanitizeName: replace each of the characters in the regex
class [<>:"|?*] by an underscore. -/
def sanitizeChar (c : Char) : Char :=
  if c = '<' ∨ c = '>' ∨ c = ':' ∨ c = '"' ∨ c = '|' ∨ c = '?' ∨ c = '*' then '_'
  else c

/-- FileWriter.sanitizeName lifted to strings. -/
def sanitizeName (s : String) : String := String.mk (s.data.map sanitizeChar)

/-- FileWriter.getScriptFileName: uses the "init" pattern when the node's
name equals the last segment of its own path (which the code reads as the
parent name), else the sanitized name plus the configured extension. -/
def getScriptFileName (node : TreeNode) : String :=
  match node.path.getLast? with
  | some parentName =>
    if node.name = parentName then "init" ++ scriptExtension
    else sanitizeName node.name ++ scriptExtension
  | none => sanitizeName node.name ++ scriptExtension

/-- FileWriter.getFilePath as path segments relative to the working
directory; baseDir is the resolved sync directory (e.g. ["sync"]).  Every
segment of the node's logical path is sanitized, and for script nodes the
computed file name is appended. -/
def getFilePath (baseDir : List String) (node : TreeNode) : List String :=
  baseDir ++ node.path.map sanitizeName ++
    (if isScriptClassName node.className then [getScriptFileName node] else [])

/-- FileMapping (fileWriter part of src/src/fs). -/
structure FileMapping where
  guid : String
  filePath : List String
  className : String
deriving Repr, DecidableEq

/-- FileWriter.writeScript: skip non-scripts and nodes whose source is
missing or empty (JS falsiness of node.source); otherwise write the file and
record the guid → path mapping.  Returns the performed write, if any. -/
def writeScript (baseDir : List String) (mappings : AMap FileMapping)
    (node : TreeNode) : AMap FileMapping × Option (List String × String) :=
  match node.source with
  | none => (mappings, none)
  | some src =>
    if isScriptClassName node.className ∧ src ≠ "" then
      let fp := getFilePath baseDir node
      (mapSet mappings node.guid ⟨node.guid, fp, node.className⟩, some (fp, src))
    else (mappings, none)

/-- FileWriter.writeTree: clear the mappings, then write every script node in
map order; returns the final mappings and the performed writes in order. -/
def writeTree (baseDir : List String) (nodes : NodeMap) :
    AMap FileMapping × List (List String × String) :=
  nodes.foldl
    (fun acc p =>
      if isScriptClassName p.2.className then
        match writeScript baseDir acc.1 p.2 with
        | (m, some w) => (m, acc.2 ++ [w])
        | (m, none) => (m, acc.2)
      else acc)
    ([], [])

/-- FileWriter.getGuidByPath: reverse lookup of the file mapping. -/
def getGuidByPath (mappings : AMap FileMapping) (fp : List String) : Option String :=
  (mappings.find? (fun p => p.2.filePath == fp)).map Prod.fst

/-- Build the tree node denoted by a classified script file, under the store's
path convention that a node's logical path ends with its own name (the editor
plugin sends paths from the root service down to and including the node). -/
def nodeOfClassified (prefixPath : List String) (f : FName) : TreeNode :=
  { guid := "g", className := (classifyScript f).1,
    name := String.mk (classifyScript f).2,
    path := prefixPath ++ [String.mk (classifyScript f).2],
    source := some " ", children := [], parent := none }

/-! Sourcemap generator (src/src/sourcemap/generator.ts).  A SourcemapNode's
optional keys are Options: none means the JSON key is absent. -/

inductive SNode where
  | mk (name : String) (className : String) (filePaths : Option (List String))
      (children : Option (List SNode))
deriving Repr

/-- Name accessor of a sourcemap node. -/
def SNode.name : SNode → String
  | .mk n _ _ _ => n

/-- Class accessor of a sourcemap node. -/
def SNode.className : SNode → String
  | .mk _ c _ _ => c

/-- File-path list accessor of a sourcemap node. -/
def SNode.filePaths : SNode → Option (List String)
  | .mk _ _ f _ => f

/-- Children accessor of a sourcemap node. -/
def SNode.children : SNode → Option (List SNode)
  | .mk _ _ _ c => c

/-- Replace the children array of a sourcemap node (in-place mutation of
holder.children in the source). -/
def SNode.withChildren : SNode → Option (List SNode) → SNode
  | .mk n c f _, ch => .mk n c f ch

/-- The sourcemap document root (name "Game", class "DataModel"). -/
structure SRoot where
  name : String
  className : String
  children : List SNode
deriving Repr

/-- SourcemapGenerator.keyFromPath: segments joined by the u0001 sentinel. -/
def keyFromPath (segs : List String) : String := String.intercalate "\u0001" segs

/-- SourcemapGenerator.buildNodeFromIndex, fuelled: emit a node, guard
against cyclic paths through the visited set, and recurse into the children
listed by the parent-path index.  The fuel only bounds the depth; generate
passes nodes.length + 1, which suffices since every level adds one key to
the visited set. -/
def buildNodeFromIndex : Nat → TreeNode → AMap (List TreeNode) →
    AMap FileMapping → List String → Option SNode × List String
  | 0, _, _, _, visited => (none, visited)
  | fuel + 1, node, cbp, mappings, visited =>
    if visited.contains (keyFromPath node.path) then (none, visited)
    else
      let visited1 := visited ++ [keyFromPath node.path]
      let filePaths : Option (List String) :=
        match mapGet mappings node.guid with
        | some fm => some [String.intercalate "/" fm.filePath]
        | none => none
      match mapGet cbp (keyFromPath node.path) with
      | some childNodes =>
        let res := childNodes.foldl
          (fun acc c =>
            match buildNodeFromIndex fuel c cbp mappings acc.2 with
            | (some b, v) => (acc.1 ++ [b], v)
            | (none, v) => (acc.1, v))
          (([] : List SNode), visited1)
        (some (SNode.mk node.name node.className filePaths
          (if res.1.length > 0 then some res.1 else none)), res.2)
      | none => (some (SNode.mk node.name node.className filePaths none), visited1)

/-- SourcemapGenerator.generate: one pass building the parent-path index and
the service-root list, then one buildNodeFromIndex per service root (each
with a fresh visited set). -/
def generate (nodes : NodeMap) (mappings : AMap FileMapping) : SRoot :=
  let idx := nodes.foldl
    (fun (acc : AMap (List TreeNode) × List TreeNode) p =>
      if p.2.path.length = 0 then acc
      else
        let acc1 := if p.2.path.length = 1 then (acc.1, acc.2 ++ [p.2]) else acc
        let parentKey := keyFromPath p.2.path.dropLast
        match mapGet acc1.1 parentKey with
        | some l => (mapSet acc1.1 parentKey (l ++ [p.2]), acc1.2)
        | none => (mapSet acc1.1 parentKey [p.2], acc1.2))
    (([] : AMap (List TreeNode)), ([] : List TreeNode))
  let children := idx.2.foldl
    (fun cs sn =>
      match buildNodeFromIndex (nodes.length + 1) sn idx.1 mappings [] with
      | (some built, _) => cs ++ [built]
      | (none, _) => cs) []
  ⟨"Game", "DataModel", children⟩

/-- The placeholder class for a missing intermediate index entry: the class
of the tree node found at the ancestor prefix, or "Folder" when unknown
(ancestorNode?.className ?? "Folder" in insertNodeAtPath). -/
def snodeTreeClass (allNodes : NodeMap) (prefixPath : List String) : String :=
  match findNodeByPath allNodes prefixPath with
  | some (_, n) => n.className
  | none => "Folder"

/-- The leaf step of SourcemapGenerator.insertNodeAtPath when isNew is
false: findIndex by name and className, then splice-replace the first match,
or push when none matches. -/
def insertLeafReplace (newNode : SNode) (seg : String) : List SNode → List SNode
  | [] => [newNode]
  | c :: cs =>
    if c.name = seg ∧ c.className = newNode.className then newNode :: cs
    else c :: insertLeafReplace newNode seg cs

/-- The descend step of insertNodeAtPath: findIndex by name, then replace the
first matching child's children array by continuing the walk (k) on it, or
push a placeholder of the given class whose children are the continuation on
a fresh array. -/
def insertDescend (k : List SNode → List SNode) (cls : String) (seg : String) :
    List SNode → List SNode
  | [] => [SNode.mk seg cls none (some (k []))]
  | c :: cs =>
    if c.name = seg then
      c.withChildren (some (k (c.children.getD []))) :: cs
    else c :: insertDescend k cls seg cs

/-- SourcemapGenerator.insertNodeAtPath: walk the children arrays along the
node's path (consumed tracks the prefix walked so far, for the placeholder
class lookup); at the final segment replace-or-append (always append when
isNewEntry); on the way down descend into the first child with a matching
name, creating a placeholder for a missing intermediate ancestor. -/
def insertNodeAtPath (allNodes : NodeMap) (isNewEntry : Bool) (newNode : SNode) :
    List String → List String → List SNode → List SNode
  | _, [], children => children
  | _, [seg], children =>
    if isNewEntry then children ++ [newNode]
    else insertLeafReplace newNode seg children
  | consumed, seg :: seg2 :: rest, children =>
    insertDescend
      (fun l => insertNodeAtPath allNodes isNewEntry newNode (consumed ++ [seg])
        (seg2 :: rest) l)
      (snodeTreeClass allNodes (consumed ++ [seg])) seg children

/-- The try/catch of SourcemapGenerator.upsertSubtree: the incremental
attempt is an Except value (its errors are I/O errors, outside the pure
model); any error falls back to full regeneration from the tree and the
file mappings. -/
def upsertSubtreeResult (attempt : Except String SRoot) (nodes : NodeMap)
    (mappings : AMap FileMapping) : SRoot :=
  match attempt with
  | .ok r => r
  | .error _ => generate nodes mappings

/-! JSON serialization: JSON.stringify(value, null, 2) for the sourcemap
document, and the filesystem actions of SourcemapGenerator.write. -/

/-- Lowercase hexadecimal digit. -/
def jsonHexDigit (n : Nat) : Char :=
  if n < 10 then Char.ofNat (48 + n) else Char.ofNat (87 + n)

/-- JSON string escaping as performed by JSON.stringify. -/
def jsonEscapeChar (c : Char) : String :=
  if c = '"' then "\\\""
  else if c = '\\' then "\\\\"
  else if c = '\x08' then "\\b"
  else if c = '\x0c' then "\\f"
  else if c = '\n' then "\\n"
  else if c = '\r' then "\\r"
  else if c = '\t' then "\\t"
  else if c.toNat < 32 then
    "\\u00" ++ String.mk [jsonHexDigit (c.toNat / 16), jsonHexDigit (c.toNat % 16)]
  else String.singleton c

/-- JSON string literal. -/
def jsonStr (s : String) : String :=
  "\"" ++ String.join (s.data.map jsonEscapeChar) ++ "\""

/-- Indentation produced by JSON.stringify with indent 2 at depth d. -/
def indentOf (d : Nat) : String := String.mk (List.replicate (2 * d) ' ')

/-- A JSON array of strings at depth d. -/
def jsonStrArray (d : Nat) (l : List String) : String :=
  match l with
  | [] => "[]"
  | _ =>
    "[\n" ++ String.intercalate ",\n" (l.map (fun s => indentOf (d + 1) ++ jsonStr s))
      ++ "\n" ++ indentOf d ++ "]"

/-- Assemble a JSON array at depth d from already-printed item lines
(printed at depth d + 1); the empty array prints as a bare bracket pair. -/
def arrOfItems (d : Nat) (items : List String) : String :=
  match items with
  | [] => "[]"
  | _ =>
    "[\n" ++ String.intercalate ",\n" items ++ "\n" ++ indentOf d ++ "]"

mutual

/-- JSON.stringify with indent 2 of one sourcemap node at depth d; the
filePaths and children keys are emitted only when present. -/
def printSNode (d : Nat) (n : SNode) : String :=
  match n with
  | .mk name className filePaths children =>
    "\x7b\n"
    ++ String.intercalate ",\n"
      ([indentOf (d + 1) ++ jsonStr "name" ++ ": " ++ jsonStr name,
        indentOf (d + 1) ++ jsonStr "className" ++ ": " ++ jsonStr className]
       ++ (match filePaths with
           | some fps =>
             [indentOf (d + 1) ++ jsonStr "filePaths" ++ ": "
               ++ jsonStrArray (d + 1) fps]
           | none => [])
       ++ (match children with
           | some cs =>
             [indentOf (d + 1) ++ jsonStr "children" ++ ": "
               ++ arrOfItems (d + 1) (printSNodeItems (d + 2) cs)]
           | none => []))
    ++ "\n" ++ indentOf d ++ "\x7d"
termination_by structural n

/-- The indented item lines of a children array at depth d. -/
def printSNodeItems (d : Nat) (l : List SNode) : List String :=
  match l with
  | [] => []
  | c :: cs => (indentOf d ++ printSNode d c) :: printSNodeItems d cs
termination_by structural l

end

/-- JSON.stringify(sourcemap, null, 2) of the whole document (keys name,
className, children in insertion order). -/
def printSRoot (r : SRoot) : String :=
  "\x7b\n" ++ indentOf 1 ++ jsonStr "name" ++ ": " ++ jsonStr r.name ++ ",\n"
    ++ indentOf 1 ++ jsonStr "className" ++ ": " ++ jsonStr r.className ++ ",\n"
    ++ indentOf 1 ++ jsonStr "children" ++ ": "
    ++ arrOfItems 1 (printSNodeItems 2 r.children)
    ++ "\n\x7d"

/-- Filesystem actions performed by the daemon's writers. -/
inductive FsAction where
  | mkdirp (dir : String)
  | writeFile (path : String) (content : String)
  | rename (src dst : String)
deriving Repr, DecidableEq

/-- Split a character list on the forward slash. -/
def splitSlash : List Char → List (List Char)
  | [] => [[]]
  | c :: cs =>
    let r := splitSlash cs
    if c = '/' then [] :: r else (c :: r.headD []) :: r.tail

/-- path.dirname on forward-slash paths (enough for the sourcemap output
path). -/
def dirnameOf (p : String) : String :=
  let parts := splitSlash p.data
  if parts.length ≤ 1 then "."
  else String.intercalate "/" (parts.dropLast.map String.mk)

/-- SourcemapGenerator.write: create the destination directory if needed,
then serialize with JSON.stringify(sourcemap, null, 2) and write the output
file directly with fs.writeFileSync.  Returns the filesystem actions
performed, in order. -/
def writeSourcemap (s : SRoot) (outputPath : String) (dirExists : Bool) :
    List FsAction :=
  (if dirnameOf outputPath ≠ "" ∧ dirnameOf outputPath ≠ "." ∧ ¬ dirExists then
    [FsAction.mkdirp (dirnameOf outputPath)]
  else [])
  ++ [FsAction.writeFile outputPath (printSRoot s)]

/-- Scenario 1 of the spec (claim C3): a fullSnapshot with the service
ReplicatedStorage and a ModuleScript Foo with source "return 1\n". -/
def snapshotC3 : List InstanceData :=
  [ { guid := "ga", className := "ReplicatedStorage", name := "ReplicatedStorage",
      path := ["ReplicatedStorage"], source := none },
    { guid := "gb", className := "ModuleScript", name := "Foo",
      path := ["ReplicatedStorage", "Foo"], source := some "return 1\n" } ]

/-- The store after applying the C3 snapshot. -/
def storeC3 : TreeManager := applyFullSnapshot snapshotC3

/-- The script writes performed by FileWriter.writeTree for the C3 store. -/
def writesC3 : List (List String × String) := (writeTree ["sync"] storeC3.nodes).2

/-- The file mappings after writeTree for the C3 store. -/
def mappingsC3 : AMap FileMapping := (writeTree ["sync"] storeC3.nodes).1

/-- The generated sourcemap for the C3 store. -/
def sourcemapC3 : SRoot := generate storeC3.nodes mappingsC3

/-- Modelled from the spec: the file watcher's per-path echo-suppression
state.  The daemon (SyncDaemon in src/unnamed/part_003) calls
FileWatcher.suppressNextChange, but the watcher implementation bundled under
src (the watcher part of src/src/fs) predates this API and does not define
it; spec §4.5 specifies that suppressNextChange(absPath) consumes exactly
one upcoming change event for that path. -/
structure WatcherState where
  suppressed : List String
deriving Repr, DecidableEq

/-- Modelled from the spec: arm one suppression token for a path. -/
def suppressNextChange (w : WatcherState) (p : String) : WatcherState :=
  ⟨p :: w.suppressed⟩

/-- Modelled from the spec: process one raw filesystem change event for a
path.  A suppressed path consumes one token and is not delivered to the
registered change handler; the Bool is true when the handler runs. -/
def processRawEvent (w : WatcherState) (p : String) : WatcherState × Bool :=
  if w.suppressed.contains p then (⟨w.suppressed.erase p⟩, false) else (w, true)

/-- The daemon's state relevant to the scriptChanged/echo flow. -/
structure DaemonState where
  tree : TreeManager
  watcher : WatcherState
  mappings : AMap FileMapping
deriving Repr, DecidableEq

/-- Path segments joined into the watcher's path key. -/
def filePathString (segs : List String) : String := String.intercalate "/" segs

/-- SyncDaemon.handleScriptChanged (src/unnamed/part_003): update the source,
upsert the node from the message when the guid is unknown, then arm watcher
suppression for the node's computed file path and write the file.  Returns
the new daemon state and the path written, if any. -/
def handleScriptChanged (d : DaemonState) (guid : String)
    (instancePath : List String) (className : String) (source : String) :
    DaemonState × Option (List String) :=
  match mapGet (updateScriptSource d.tree guid source).nodes guid with
  | some node =>
    (⟨updateScriptSource d.tree guid source,
      suppressNextChange d.watcher (filePathString (getFilePath ["sync"] node)),
      (writeScript ["sync"] d.mappings node).1⟩,
     ((writeScript ["sync"] d.mappings node).2).map Prod.fst)
  | none =>
    match mapGet (updateInstance (updateScriptSource d.tree guid source)
        { guid := guid, className := className,
          name := (instancePath.getLast?).getD "", path := instancePath,
          source := some source }).nodes guid with
    | some node =>
      (⟨updateInstance (updateScriptSource d.tree guid source)
          { guid := guid, className := className,
            name := (instancePath.getLast?).getD "", path := instancePath,
            source := some source },
        suppressNextChange d.watcher (filePathString (getFilePath ["sync"] node)),
        (writeScript ["sync"] d.mappings node).1⟩,
       ((writeScript ["sync"] d.mappings node).2).map Prod.fst)
    | none =>
      (⟨updateInstance (updateScriptSource d.tree guid source)
          { guid := guid, className := className,
            name := (instancePath.getLast?).getD "", path := instancePath,
            source := some source }, d.watcher, d.mappings⟩, none)

/-- One raw watcher event for a path, run through suppression; when the
event is delivered, SyncDaemon.handleFileChange (src/unnamed/part_003) looks
up the guid by path and emits a patchScript message (guid, source). -/
def echoRound (d : DaemonState) (p : List String) (body : String) :
    DaemonState × List (String × String) :=
  match processRawEvent d.watcher (filePathString p) with
  | (w1, true) =>
    match getGuidByPath d.mappings p with
    | some g => (⟨updateScriptSource d.tree g body, w1, d.mappings⟩, [(g, body)])
    | none => (⟨d.tree, w1, d.mappings⟩, [])
  | (w1, false) => (⟨d.tree, w1, d.mappings⟩, [])

/-- An editor-originated scriptChanged message followed by the single watcher
event that its file write produces: the outbound patchScript messages. -/
def scriptChangedEcho (d : DaemonState) (guid : String)
    (instancePath : List String) (className : String) (source : String) :
    List (String × String) :=
  match handleScriptChanged d guid instancePath className source with
  | (d1, some fp) => (echoRound d1 fp source).2
  | (_, none) => []

/-- A small concrete scenario: a service S with a module P containing a
module Q, as sent in a full snapshot by the editor plugin. -/
def demoSnapshot : List InstanceData :=
  [ { guid := "gS", className := "ServerScriptService", name := "S",
      path := ["S"], source := none },
    { guid := "gP", className := "ModuleScript", name := "P",
      path := ["S", "P"], source := some "p" },
    { guid := "gQ", className := "ModuleScript", name := "Q",
      path := ["S", "P", "Q"], source := some "q" } ]

/-- The store after applying the demo snapshot. -/
def demoStore : TreeManager := applyFullSnapshot demoSnapshot

/-- The instanceUpdated message renaming P to R (path [S,P] → [S,R]). -/
def demoRenameInst : InstanceData :=
  { guid := "gP", className := "ModuleScript", name := "R",
    path := ["S", "R"], source := some "p" }

/-- The store after the rename. -/
def demoRenamed : TreeManager := updateInstance demoStore demoRenameInst

/-- The path invariant claimed in C1: every non-root node's stored path is
its parent's stored path extended by its own name. -/
def PathInvariant (st : TreeManager) : Prop :=
  ∀ g n, mapGet st.nodes g = some n → g ≠ "root" →
    ∃ pg pn, n.parent = some pg ∧ mapGet st.nodes pg = some pn ∧
      n.path = pn.path ++ [n.name]

/-- Equality of all node fields except the children map and the parent link
(the fields that tree-store bookkeeping may touch on other nodes). -/
def shapeEq (n n' : TreeNode) : Prop :=
  n'.path = n.path ∧ n'.name = n.name ∧ n'.className = n.className ∧
    n'.source = n.source

section MapLemmas

variable {α : Type}

theorem mapGet_updateN (m : AMap α) (k x : String) (f : α → α) :
    mapGet (updateN m k f) x = if x = k then (mapGet m k).map f else mapGet m x := by
  induction m with
  | nil => simp [mapGet, updateN]
  | cons p m ih =>
    obtain ⟨k', v⟩ := p
    by_cases hk : k' = k
    · subst hk
      by_cases hx : k' = x
      · subst hx
        simp [updateN, mapGet, ih]
      · have hx' : ¬ x = k' := fun h => hx h.symm
        simp [updateN, mapGet, hx, hx', ih]
    · by_cases hx : k' = x
      · subst hx
        have hk' : ¬ k = k' := fun h => hk h.symm
        simp [updateN, mapGet, hk, hk', ih]
      · have hx' : ¬ x = k' := fun h => hx h.symm
        simp [updateN, mapGet, hk, hx, hx', ih]

theorem mapGet_mapDelete (m : AMap α) (k x : String) :
    mapGet (mapDelete m k) x = if x = k then none else mapGet m x := by
  induction m with
  | nil => simp [mapGet, mapDelete]
  | cons p m ih =>
    obtain ⟨k', v⟩ := p
    by_cases hk : k' = k
    · subst hk
      by_cases hx : k' = x
      · subst hx
        simp [mapDelete, mapGet, ih]
      · have hx' : ¬ x = k' := fun h => hx h.symm
        simp [mapDelete, mapGet, hx, hx', ih]
    · by_cases hx : k' = x
      · subst hx
        have hk' : ¬ k = k' := fun h => hk h.symm
        simp [mapDelete, mapGet, hk, hk', ih]
      · have hx' : ¬ x = k' := fun h => hx h.symm
        simp [mapDelete, mapGet, hk, hx, hx', ih]

theorem mapGet_mapReplace (m : AMap α) (k x : String) (v : α) :
    mapGet (mapReplace m k v) x =
      if x = k then (mapGet m k).map (fun _ => v) else mapGet m x := by
  induction m with
  | nil => simp [mapGet, mapReplace]
  | cons p m ih =>
    obtain ⟨k', v'⟩ := p
    by_cases hk : k' = k
    · subst hk
      by_cases hx : k' = x
      · subst hx
        simp [mapReplace, mapGet, ih]
      · have hx' : ¬ x = k' := fun h => hx h.symm
        simp [mapReplace, mapGet, hx, hx', ih]
    · by_cases hx : k' = x
      · subst hx
        have hk' : ¬ k = k' := fun h => hk h.symm
        simp [mapReplace, mapGet, hk, hk', ih]
      · have hx' : ¬ x = k' := fun h => hx h.symm
        simp [mapReplace, mapGet, hk, hx, hx', ih]

theorem mapGet_append_none (m₁ m₂ : AMap α) (x : String)
    (h : mapGet m₁ x = none) : mapGet (m₁ ++ m₂) x = mapGet m₂ x := by
  induction m₁ with
  | nil => simp
  | cons p m ih =>
    obtain ⟨k', v⟩ := p
    rw [mapGet] at h
    rw [List.cons_append, mapGet]
    split_ifs with hx
    · rw [if_pos hx] at h; exact absurd h (by simp)
    · rw [if_neg hx] at h; exact ih h

theorem mapGet_append_some (m₁ m₂ : AMap α) (x : String) (v : α)
    (h : mapGet m₁ x = some v) : mapGet (m₁ ++ m₂) x = some v := by
  induction m₁ with
  | nil => simp [mapGet] at h
  | cons p m ih =>
    obtain ⟨k', v'⟩ := p
    rw [mapGet] at h
    rw [List.cons_append, mapGet]
    split_ifs with hx
    · rw [if_pos hx] at h; exact h
    · rw [if_neg hx] at h; exact ih h

theorem mapContains_iff (m : AMap α) (k : String) :
    mapContains m k = true ↔ (mapGet m k).isSome = true := by
  induction m with
  | nil => simp [mapContains, mapGet]
  | cons p m ih =>
    obtain ⟨k', v⟩ := p
    rw [mapContains, mapGet]
    by_cases hx : k' = k
    · simp [hx]
    · simp only [if_neg hx, Bool.or_eq_true, decide_eq_true_eq]
      simp [hx, ih]

theorem mapGet_mapSet (m : AMap α) (k x : String) (v : α) :
    mapGet (mapSet m k v) x = if x = k then some v else mapGet m x := by
  unfold mapSet
  by_cases hc : mapContains m k = true
  · rw [if_pos hc, mapGet_mapReplace]
    by_cases hx : x = k
    · subst hx
      rw [if_pos rfl, if_pos rfl]
      have hs := (mapContains_iff m x).1 hc
      rcases hg : mapGet m x with _ | w
      · rw [hg] at hs; simp at hs
      · rfl
    · rw [if_neg hx, if_neg hx]
  · rw [if_neg hc]
    by_cases hx : x = k
    · subst hx
      have hg : mapGet m x = none := by
        rcases hg : mapGet m x with _ | w
        · rfl
        · exact absurd ((mapContains_iff m x).2 (by rw [hg]; rfl)) hc
      rw [mapGet_append_none m _ x hg, if_pos rfl, mapGet, if_pos rfl]
    · rcases hg : mapGet m x with _ | w
      · rw [mapGet_append_none m _ x hg, if_neg hx, mapGet,
          if_neg (fun h => hx h.symm), mapGet]
      · rw [mapGet_append_some m _ x w hg, if_neg hx]

theorem length_updateN (m : AMap α) (k : String) (f : α → α) :
    (updateN m k f).length = m.length := by
  induction m with
  | nil => rfl
  | cons p m ih =>
    obtain ⟨k', v⟩ := p
    rw [updateN]
    by_cases hk : k' = k
    · rw [if_pos hk, List.length_cons, List.length_cons, ih]
    · rw [if_neg hk, List.length_cons, List.length_cons, ih]

theorem length_mapDelete_le (m : AMap α) (k : String) :
    (mapDelete m k).length ≤ m.length := by
  induction m with
  | nil => simp [mapDelete]
  | cons p m ih =>
    obtain ⟨k', v⟩ := p
    by_cases hk : k' = k
    · simp only [mapDelete, if_pos hk, List.length_cons]
      omega
    · simp only [mapDelete, if_neg hk, List.length_cons]
      omega

theorem length_mapDelete_lt (m : AMap α) (k : String)
    (h : (mapGet m k).isSome = true) : (mapDelete m k).length < m.length := by
  induction m with
  | nil => simp [mapGet] at h
  | cons p m ih =>
    obtain ⟨k', v⟩ := p
    by_cases hk : k' = k
    · simp only [mapDelete, if_pos hk, List.length_cons]
      have := length_mapDelete_le m k
      omega
    · simp only [mapGet, if_neg hk] at h
      simp only [mapDelete, if_neg hk, List.length_cons]
      exact Nat.succ_lt_succ (ih h)

end MapLemmas

section CodecLemmas

theorem endsWithL_append (s t suffix : FName) (h : suffix.length ≤ t.length) :
    endsWithL (s ++ t) suffix = endsWithL t suffix := by
  unfold endsWithL
  rw [List.reverse_append, List.take_append_eq_append_take,
    Nat.sub_eq_zero_of_le (by simpa using h), List.take_zero, List.append_nil]

theorem endsWithL_self_append (s t : FName) : endsWithL (s ++ t) t = true := by
  unfold endsWithL
  rw [List.reverse_append, ← List.length_reverse t, List.take_left]
  simp

theorem dropSuffixL_append (s t : FName) (n : Nat) (hn : n ≤ t.length) :
    dropSuffixL (s ++ t) n = s ++ dropSuffixL t n := by
  unfold dropSuffixL
  have h2 : s.length + t.length - n = s.length + (t.length - n) := by omega
  rw [List.length_append, h2, List.take_append_eq_append_take,
    List.take_of_length_le (Nat.le_add_right _ _)]
  have h4 : s.length + (t.length - n) - s.length = t.length - n := by omega
  rw [h4]

theorem dropSuffixL_self_append (s t : FName) : dropSuffixL (s ++ t) t.length = s := by
  rw [dropSuffixL_append s t t.length (Nat.le_refl _)]
  simp [dropSuffixL]

theorem endsWithCI_append_big (s t suffix : FName) (h : suffix.length ≤ t.length) :
    endsWithCI (s ++ t) suffix = endsWithCI t suffix := by
  unfold endsWithCI
  rw [List.map_append, endsWithL_append _ _ _ (by rw [List.length_map]; exact h)]

theorem classifyScript_append_luau (s : FName) :
    classifyScript (s ++ ".luau".data) =
      (if endsWithL s ".server".data then ("Script", dropSuffixL s 7)
       else if endsWithL s ".client".data then ("LocalScript", dropSuffixL s 7)
       else if endsWithL s ".module".data then ("ModuleScript", dropSuffixL s 7)
       else ("ModuleScript", s)) := by
  have h1 : endsWithCI (s ++ ".luau".data) ".lua".data = false := by
    rw [endsWithCI_append_big _ _ _ (by decide)]; decide
  have h2 : endsWithCI (s ++ ".luau".data) ".luau".data = true := by
    rw [endsWithCI_append_big _ _ _ (by decide)]; decide
  have h3 : dropSuffixL (s ++ ".luau".data) 5 = s := dropSuffixL_self_append s _
  simp only [classifyScript, h1, h2, h3, Bool.false_eq_true, if_false, if_true]

theorem classifyScript_append_lua (s : FName) :
    classifyScript (s ++ ".lua".data) = classifyScript (s ++ ".luau".data) := by
  have h1 : endsWithCI (s ++ ".lua".data) ".lua".data = true := by
    rw [endsWithCI_append_big _ _ _ (by decide)]; decide
  have h3 : dropSuffixL (s ++ ".lua".data) 4 = s := dropSuffixL_self_append s _
  have h1' : endsWithCI (s ++ ".luau".data) ".lua".data = false := by
    rw [endsWithCI_append_big _ _ _ (by decide)]; decide
  simp only [classifyScript, h1, h3, h1', if_true, Bool.false_eq_true, if_false]

theorem classify_suffix_server (s : FName) :
    classifyScript (s ++ ".server".data ++ ".luau".data) = ("Script", s) := by
  rw [classifyScript_append_luau]
  have h1 : endsWithL (s ++ ".server".data) ".server".data = true :=
    endsWithL_self_append _ _
  have h2 : dropSuffixL (s ++ ".server".data) 7 = s := by
    have h : (7 : Nat) = (".server".data : FName).length := by decide
    rw [h, dropSuffixL_self_append]
  rw [h1, if_pos rfl, h2]

theorem classify_suffix_client (s : FName) :
    classifyScript (s ++ ".client".data ++ ".luau".data) = ("LocalScript", s) := by
  rw [classifyScript_append_luau]
  have h0 : endsWithL (s ++ ".client".data) ".server".data = false := by
    rw [endsWithL_append _ _ _ (by decide)]; decide
  have h1 : endsWithL (s ++ ".client".data) ".client".data = true :=
    endsWithL_self_append _ _
  have h2 : dropSuffixL (s ++ ".client".data) 7 = s := by
    have h : (7 : Nat) = (".client".data : FName).length := by decide
    rw [h, dropSuffixL_self_append]
  rw [h0, h1, if_neg (by simp), if_pos rfl, h2]

theorem classify_suffix_module (s : FName) :
    classifyScript (s ++ ".module".data ++ ".luau".data) = ("ModuleScript", s) := by
  rw [classifyScript_append_luau]
  have h0 : endsWithL (s ++ ".module".data) ".server".data = false := by
    rw [endsWithL_append _ _ _ (by decide)]; decide
  have h0' : endsWithL (s ++ ".module".data) ".client".data = false := by
    rw [endsWithL_append _ _ _ (by decide)]; decide
  have h1 : endsWithL (s ++ ".module".data) ".module".data = true :=
    endsWithL_self_append _ _
  have h2 : dropSuffixL (s ++ ".module".data) 7 = s := by
    have h : (7 : Nat) = (".module".data : FName).length := by decide
    rw [h, dropSuffixL_self_append]
  rw [h0, h0', h1, if_neg (by simp), if_neg (by simp), if_pos rfl, h2]

theorem classify_nosuffix (s : FName)
    (h1 : endsWithL s ".server".data = false)
    (h2 : endsWithL s ".client".data = false)
    (h3 : endsWithL s ".module".data = false) :
    classifyScript (s ++ ".luau".data) = ("ModuleScript", s) := by
  rw [classifyScript_append_luau, h1, h2, h3]
  simp

end CodecLemmas

section ClassifyExamples

example : classifyScript "Foo.server.lua".data = ("Script", "Foo".data) := by decide

example : classifyScript "Foo.luau".data = ("ModuleScript", "Foo".data) := by decide

example : classifyScript "a.module.LUA".data = ("ModuleScript", "a".data) := by decide

end ClassifyExamples

/-- C5: classifyScript, applied to a filename whose .lua extension is first
rewritten to .luau and then stripped, yields kind Script with the base minus
the suffix as name when the base ends in ".server", LocalScript for
".client", ModuleScript for ".module", and ModuleScript with the whole base
as name when no recognized suffix is present — for both extension
spellings. -/
theorem claimC5_classify_rules (s : FName) :
    classifyScript (s ++ ".server.luau".data) = ("Script", s)
    ∧ classifyScript (s ++ ".client.luau".data) = ("LocalScript", s)
    ∧ classifyScript (s ++ ".module.luau".data) = ("ModuleScript", s)
    ∧ classifyScript (s ++ ".server.lua".data) = ("Script", s)
    ∧ classifyScript (s ++ ".client.lua".data) = ("LocalScript", s)
    ∧ classifyScript (s ++ ".module.lua".data) = ("ModuleScript", s)
    ∧ (endsWithL s ".server".data = false → endsWithL s ".client".data = false →
        endsWithL s ".module".data = false →
        classifyScript (s ++ ".luau".data) = ("ModuleScript", s)
        ∧ classifyScript (s ++ ".lua".data) = ("ModuleScript", s)) := by
  have es : (".server.luau".data : FName) = ".server".data ++ ".luau".data := by decide
  have ec : (".client.luau".data : FName) = ".client".data ++ ".luau".data := by decide
  have em : (".module.luau".data : FName) = ".module".data ++ ".luau".data := by decide
  have es' : (".server.lua".data : FName) = ".server".data ++ ".lua".data := by decide
  have ec' : (".client.lua".data : FName) = ".client".data ++ ".lua".data := by decide
  have em' : (".module.lua".data : FName) = ".module".data ++ ".lua".data := by decide
  refine ⟨?_, ?_, ?_, ?_, ?_, ?_, ?_⟩
  · rw [es, ← List.append_assoc]; exact classify_suffix_server s
  · rw [ec, ← List.append_assoc]; exact classify_suffix_client s
  · rw [em, ← List.append_assoc]; exact classify_suffix_module s
  · rw [es', ← List.append_assoc, classifyScript_append_lua]
    exact classify_suffix_server s
  · rw [ec', ← List.append_assoc, classifyScript_append_lua]
    exact classify_suffix_client s
  · rw [em', ← List.append_assoc, classifyScript_append_lua]
    exact classify_suffix_module s
  · intro h1 h2 h3
    exact ⟨classify_nosuffix s h1 h2 h3,
      by rw [classifyScript_append_lua]; exact classify_nosuffix s h1 h2 h3⟩

/-- Witness for C5 at concrete inputs. -/
theorem claimC5_witness :
    classifyScript ("Foo".data ++ ".server.luau".data) = ("Script", "Foo".data)
    ∧ classifyScript ("Foo".data ++ ".luau".data) = ("ModuleScript", "Foo".data) := by
  have h := claimC5_classify_rules "Foo".data
  exact ⟨h.1, (h.2.2.2.2.2.2 (by decide) (by decide) (by decide)).1⟩

/-- C2 counterexample: the claimed round trip fails.  For the filename
"Foo.server.luau" (already in .luau form, so the claimed result is the
filename itself), classifyScript yields (Script, "Foo"), but encoding that
node with FileWriter's getScriptFileName produces "init.luau": the node's
path ends with its own name, so the init branch is always taken, and the
.server suffix is never re-encoded. -/
theorem claimC2_counterexample :
    classifyScript "Foo.server.luau".data = ("Script", "Foo".data)
    ∧ getScriptFileName
        (nodeOfClassified ["ReplicatedStorage"] "Foo.server.luau".data) = "init.luau"
    ∧ getScriptFileName
        (nodeOfClassified ["ReplicatedStorage"] "Foo.server.luau".data)
      ≠ "Foo.server.luau" := by
  refine ⟨by decide, by decide, by decide⟩

/-- C2 (amended): for every script filename f and every path prefix, encoding
the node obtained from classifyScript under the store's path convention
(the node's logical path ends with its own name) yields the init file name
"init.luau"; the round trip of the original claim holds only for filenames
normalizing to "init.luau". -/
theorem claimC2_amended (prefixPath : List String) (f : FName) :
    getScriptFileName (nodeOfClassified prefixPath f) = "init.luau" := by
  simp [nodeOfClassified, getScriptFileName, scriptExtension]

section FrameLemmas

theorem mapGet_updateN_ne {α : Type} (m : AMap α) (k x : String) (f : α → α)
    (hx : x ≠ k) : mapGet (updateN m k f) x = mapGet m x := by
  rw [mapGet_updateN, if_neg hx]

theorem mapGet_mapSet_ne {α : Type} (m : AMap α) (k x : String) (v : α)
    (hx : x ≠ k) : mapGet (mapSet m k v) x = mapGet m x := by
  rw [mapGet_mapSet, if_neg hx]

theorem keys_updateN {α : Type} (m : AMap α) (k : String) (f : α → α) :
    (updateN m k f).map Prod.fst = m.map Prod.fst := by
  induction m with
  | nil => rfl
  | cons p m ih =>
    obtain ⟨k', v⟩ := p
    rw [updateN]
    by_cases hk : k' = k
    · rw [if_pos hk, List.map_cons, List.map_cons, ih]
    · rw [if_neg hk, List.map_cons, List.map_cons, ih]

theorem shapeEq_refl (n : TreeNode) : shapeEq n n := ⟨rfl, rfl, rfl, rfl⟩

theorem shapeEq_trans {a b c : TreeNode} (h1 : shapeEq a b) (h2 : shapeEq b c) :
    shapeEq a c :=
  ⟨h2.1.trans h1.1, h2.2.1.trans h1.2.1, h2.2.2.1.trans h1.2.2.1,
    h2.2.2.2.trans h1.2.2.2⟩

theorem shapeEq_childAdd (g : String) (n : TreeNode) : shapeEq n (childAdd g n) := by
  unfold childAdd
  by_cases h : n.children.contains g
  · rw [if_pos h]; exact shapeEq_refl n
  · rw [if_neg h]; exact ⟨rfl, rfl, rfl, rfl⟩

theorem shapeEq_childDel (g : String) (n : TreeNode) : shapeEq n (childDel g n) :=
  ⟨rfl, rfl, rfl, rfl⟩

theorem shape_updateN (m : NodeMap) (k x : String) (f : TreeNode → TreeNode)
    (hf : ∀ v, shapeEq v (f v)) (n : TreeNode) (h : mapGet m x = some n) :
    ∃ n', mapGet (updateN m k f) x = some n' ∧ shapeEq n n' := by
  rw [mapGet_updateN]
  by_cases hx : x = k
  · subst hx
    rw [if_pos rfl, h]
    exact ⟨f n, rfl, hf n⟩
  · rw [if_neg hx, h]
    exact ⟨n, rfl, shapeEq_refl n⟩

theorem attachTo_frame (st : TreeManager) (pg g x : String) (n : TreeNode)
    (h : mapGet st.nodes x = some n) :
    ∃ n', mapGet (attachTo st pg g).nodes x = some n' ∧ shapeEq n n' := by
  unfold attachTo
  obtain ⟨n1, h1, s1⟩ :=
    shape_updateN st.nodes pg x (childAdd g) (fun v => shapeEq_childAdd g v) n h
  obtain ⟨n2, h2, s2⟩ :=
    shape_updateN _ g x (fun v => { v with parent := some pg })
      (fun v => ⟨rfl, rfl, rfl, rfl⟩) n1 h1
  exact ⟨n2, h2, shapeEq_trans s1 s2⟩

theorem ensureRoot_frame (st : TreeManager) (x : String) (hxr : x ≠ "root") :
    mapGet (ensureRoot st).nodes x = mapGet st.nodes x := by
  unfold ensureRoot
  cases st.root with
  | some r => rfl
  | none => exact mapGet_mapSet_ne _ _ _ _ hxr

theorem reparentAttach_frame (st : TreeManager) (g : String) (path : List String)
    (x : String) (n : TreeNode) (hxr : x ≠ "root")
    (h : mapGet st.nodes x = some n) :
    ∃ n', mapGet (reparentAttach st g path).nodes x = some n' ∧ shapeEq n n' := by
  unfold reparentAttach
  by_cases hlen : path.length = 1
  · rw [if_pos hlen]
    have h2 : mapGet (ensureRoot st).nodes x = some n := by
      rw [ensureRoot_frame st x hxr]; exact h
    exact attachTo_frame _ "root" g x n h2
  · rw [if_neg hlen]
    cases hf : findNodeByPath st.nodes path.dropLast with
    | none => exact ⟨n, h, shapeEq_refl n⟩
    | some p =>
      obtain ⟨pg, pn⟩ := p
      exact attachTo_frame st pg g x n h

theorem reparentNode_frame (st : TreeManager) (g : String) (path : List String)
    (x : String) (n : TreeNode) (hxr : x ≠ "root")
    (h : mapGet st.nodes x = some n) :
    ∃ n', mapGet (reparentNode st g path).nodes x = some n' ∧ shapeEq n n' := by
  unfold reparentNode
  cases hget : mapGet st.nodes g with
  | none => exact ⟨n, h, shapeEq_refl n⟩
  | some node =>
    dsimp only
    cases hpar : node.parent with
    | none => exact reparentAttach_frame st g path x n hxr h
    | some pg =>
      obtain ⟨n1, h1, s1⟩ :=
        shape_updateN st.nodes pg x (childDel g) (fun v => shapeEq_childDel g v) n h
      obtain ⟨n2, h2, s2⟩ :=
        reparentAttach_frame ⟨updateN st.nodes pg (childDel g), st.root⟩ g path x n1
          hxr h1
      exact ⟨n2, h2, shapeEq_trans s1 s2⟩

end FrameLemmas

/-- C1 counterexample: starting from the demo snapshot (service S, module P
below it, module Q below P) and applying the instanceUpdated that renames P
to R (path [S,P] → [S,R]), the stored path of the descendant Q remains
[S,P,Q] although its parent's stored path is now [S,R]: the claimed
invariant n.path = parent(n).path ++ [n.name] does not hold after
updateInstance returns. -/
theorem claimC1_counterexample : ¬ PathInvariant demoRenamed := by
  intro h
  obtain ⟨pg, pn, hp, hpn, hpath⟩ :=
    h "gQ"
      { guid := "gQ", className := "ModuleScript", name := "Q",
        path := ["S", "P", "Q"], source := some "q", children := [],
        parent := some "gP" }
      (by decide) (by decide)
  have hp' : some "gP" = some pg := hp
  have hpg : pg = "gP" := (Option.some.inj hp').symm
  subst hpg
  have hpn2 : mapGet demoRenamed.nodes "gP" =
      some { guid := "gP", className := "ModuleScript", name := "R",
             path := ["S", "R"], source := some "p", children := ["gQ"],
             parent := some "gS" } := by decide
  rw [hpn2] at hpn
  have hpn3 := Option.some.inj hpn
  rw [← hpn3] at hpath
  exact absurd hpath (by decide)

/-- C1 (amended): updateInstance reparents only the updated node itself;
every other node — in particular every descendant of a renamed or moved
node — keeps its stored path, name, class and source unchanged, so the
claimed invariant can fail for descendants after a path or name change. -/
theorem claimC1_amended (st : TreeManager) (inst : InstanceData) (g : String)
    (n : TreeNode) (hg : g ≠ inst.guid) (hr : g ≠ "root")
    (hget : mapGet st.nodes g = some n) :
    ∃ n', mapGet (updateInstance st inst).nodes g = some n'
      ∧ n'.path = n.path ∧ n'.name = n.name ∧ n'.className = n.className
      ∧ n'.source = n.source := by
  unfold updateInstance
  cases hx : mapGet st.nodes inst.guid with
  | some existing =>
    dsimp only
    have hbase : mapGet (updateN st.nodes inst.guid (fun v =>
        { v with className := inst.className, name := inst.name,
                 path := inst.path, source := inst.source })) g = some n := by
      rw [mapGet_updateN_ne _ _ _ _ hg]; exact hget
    by_cases hchange : (existing.path ≠ inst.path) ∨ (existing.name ≠ inst.name)
    · rw [if_pos hchange]
      obtain ⟨n', h', s'⟩ :=
        reparentNode_frame ⟨updateN st.nodes inst.guid _, st.root⟩ inst.guid
          inst.path g n hr hbase
      exact ⟨n', h', s'.1, s'.2.1, s'.2.2.1, s'.2.2.2⟩
    · rw [if_neg hchange]
      exact ⟨n, hbase, rfl, rfl, rfl, rfl⟩
  | none =>
    dsimp only
    have hbase : mapGet (mapSet st.nodes inst.guid
        { guid := inst.guid, className := inst.className, name := inst.name,
          path := inst.path, source := inst.source, children := [],
          parent := none }) g = some n := by
      rw [mapGet_mapSet_ne _ _ _ _ hg]; exact hget
    obtain ⟨n', h', s'⟩ :=
      reparentNode_frame ⟨mapSet st.nodes inst.guid _, st.root⟩ inst.guid
        inst.path g n hr hbase
    exact ⟨n', h', s'.1, s'.2.1, s'.2.2.1, s'.2.2.2⟩

/-- Witness for the amended C1 at the demo rename. -/
theorem claimC1_witness :
    ∃ n', mapGet demoRenamed.nodes "gQ" = some n'
      ∧ n'.path = ["S", "P", "Q"] ∧ n'.name = "Q" := by
  obtain ⟨n', h', hp, hn, _, _⟩ :=
    claimC1_amended demoStore demoRenameInst "gQ"
      { guid := "gQ", className := "ModuleScript", name := "Q",
        path := ["S", "P", "Q"], source := some "q", children := [],
        parent := some "gP" }
      (by decide) (by decide) (by decide)
  exact ⟨n', h', hp, hn⟩

/-- C9: deleteInstance called with an identifier that is not present returns
null and leaves the store entirely unchanged. -/
theorem claimC9_delete_missing (st : TreeManager) (g : String)
    (h : mapGet st.nodes g = none) : deleteInstance st g = (st, none) := by
  unfold deleteInstance
  cases hf : st.nodes.length with
  | zero => rfl
  | succ m => simp [deleteFuel, h]

/-- Witness for C9 at the demo store. -/
theorem claimC9_witness : deleteInstance demoStore "nope" = (demoStore, none) :=
  claimC9_delete_missing demoStore "nope" (by decide)

/-- C10: updateScriptSource mutates only the source field of the addressed
node; the key set and every other node are untouched, and an unknown
identifier leaves the store unchanged. -/
theorem claimC10_updateScriptSource_frame (st : TreeManager) (g : String)
    (src : String) :
    (mapGet st.nodes g = none → updateScriptSource st g src = st)
    ∧ ∀ n, mapGet st.nodes g = some n →
        mapGet (updateScriptSource st g src).nodes g
            = some { n with source := some src }
        ∧ (∀ x, x ≠ g → mapGet (updateScriptSource st g src).nodes x
            = mapGet st.nodes x)
        ∧ (updateScriptSource st g src).nodes.map Prod.fst
            = st.nodes.map Prod.fst
        ∧ (updateScriptSource st g src).root = st.root := by
  constructor
  · intro h
    unfold updateScriptSource
    rw [h]
  · intro n hn
    unfold updateScriptSource
    rw [hn]
    refine ⟨?_, ?_, ?_, rfl⟩
    · show mapGet (updateN st.nodes g _) g = _
      rw [mapGet_updateN, if_pos rfl, hn]
      rfl
    · intro x hx
      exact mapGet_updateN_ne _ _ _ _ hx
    · exact keys_updateN _ _ _

/-- Witness for C10 at the demo store. -/
theorem claimC10_witness :
    mapGet (updateScriptSource demoStore "gP" "new").nodes "gP"
        = some { guid := "gP", className := "ModuleScript", name := "P",
                 path := ["S", "P"], source := some "new",
                 children := ["gQ"], parent := some "gS" }
    ∧ mapGet (updateScriptSource demoStore "gP" "new").nodes "gQ"
        = mapGet demoStore.nodes "gQ" := by
  have h :=
    (claimC10_updateScriptSource_frame demoStore "gP" "new").2
      { guid := "gP", className := "ModuleScript", name := "P",
        path := ["S", "P"], source := some "p", children := ["gQ"],
        parent := some "gS" }
      (by decide)
  exact ⟨h.1, h.2.1 "gQ" (by decide)⟩

section WatcherLemmas

theorem writeScript_path (b : List String) (m : AMap FileMapping)
    (node : TreeNode) (fp : List String) (s : String)
    (h : (writeScript b m node).2 = some (fp, s)) : fp = getFilePath b node := by
  unfold writeScript at h
  cases hs : node.source with
  | none => rw [hs] at h; cases h
  | some src =>
    rw [hs] at h
    dsimp only at h
    by_cases hc : isScriptClassName node.className = true ∧ src ≠ ""
    · rw [if_pos hc] at h
      have h2 := Option.some.inj h
      have h3 : getFilePath b node = fp := congrArg Prod.fst h2
      exact h3.symm
    · rw [if_neg hc] at h; cases h

theorem processRawEvent_armed (w : WatcherState) (p : String) :
    processRawEvent (suppressNextChange w p) p = (w, false) := by
  unfold processRawEvent suppressNextChange
  rw [if_pos (by simp)]
  simp [List.erase_cons_head]

end WatcherLemmas

/-- C4: arming suppressNextChange(p) before the write makes the watcher
consume exactly one subsequent change event for p — the event is not
delivered and the suppression state returns to what it was, so a second
event for p (when p was not otherwise suppressed) is delivered again; and an
editor-originated scriptChanged message produces no outbound patchScript
even though the projector writes the file. -/
theorem claimC4_echo_suppression (w : WatcherState) (p : String)
    (d : DaemonState) (guid : String) (instancePath : List String)
    (className source : String) :
    (processRawEvent (suppressNextChange w p) p).2 = false
    ∧ (processRawEvent (suppressNextChange w p) p).1 = w
    ∧ (p ∉ w.suppressed →
        (processRawEvent ((processRawEvent (suppressNextChange w p) p).1) p).2
          = true)
    ∧ scriptChangedEcho d guid instancePath className source = [] := by
  refine ⟨?_, ?_, ?_, ?_⟩
  · rw [processRawEvent_armed]
  · rw [processRawEvent_armed]
  · intro hnot
    rw [processRawEvent_armed]
    unfold processRawEvent
    rw [if_neg (by simpa using hnot)]
  · unfold scriptChangedEcho handleScriptChanged
    cases h1 : mapGet (updateScriptSource d.tree guid source).nodes guid with
    | some node =>
      dsimp only
      cases hwr : (writeScript ["sync"] d.mappings node).2 with
      | none => rfl
      | some pr =>
        obtain ⟨fp, s⟩ := pr
        have hfp : fp = getFilePath ["sync"] node :=
          writeScript_path _ _ _ _ _ hwr
        dsimp only [Option.map]
        unfold echoRound
        rw [hfp, processRawEvent_armed]
    | none =>
      dsimp only
      cases h2 : mapGet (updateInstance (updateScriptSource d.tree guid source)
          { guid := guid, className := className,
            name := (instancePath.getLast?).getD "", path := instancePath,
            source := some source }).nodes guid with
      | some node =>
        dsimp only
        cases hwr : (writeScript ["sync"] d.mappings node).2 with
        | none => rfl
        | some pr =>
          obtain ⟨fp, s⟩ := pr
          have hfp : fp = getFilePath ["sync"] node :=
            writeScript_path _ _ _ _ _ hwr
          dsimp only [Option.map]
          unfold echoRound
          rw [hfp, processRawEvent_armed]
      | none => rfl

/-- Witness for C4 at a concrete daemon state. -/
theorem claimC4_witness :
    (processRawEvent (suppressNextChange ⟨[]⟩ "sync/a.luau") "sync/a.luau").2
        = false
    ∧ (processRawEvent ((processRawEvent
          (suppressNextChange ⟨[]⟩ "sync/a.luau") "sync/a.luau").1)
        "sync/a.luau").2 = true
    ∧ scriptChangedEcho ⟨demoStore, ⟨[]⟩, []⟩ "gP" ["S", "P"] "ModuleScript" "z"
        = [] := by
  have h := claimC4_echo_suppression ⟨[]⟩ "sync/a.luau" ⟨demoStore, ⟨[]⟩, []⟩
    "gP" ["S", "P"] "ModuleScript" "z"
  exact ⟨h.1, h.2.2.1 (by decide), h.2.2.2⟩

/-- C3 counterexample: applying the scenario-1 snapshot to an empty store
writes exactly one script file, but at sync/ReplicatedStorage/Foo/init.luau
(with the claimed contents), not at the claimed sync/ReplicatedStorage/
Foo.luau; accordingly the index gives Foo the init.luau path.  The encoder
compares the node's name with the last segment of its own path, which always
matches, so every script takes the init form (as documented in the bundled
README's filesystem mapping section). -/
theorem claimC3_counterexample :
    writesC3 = [(["sync", "ReplicatedStorage", "Foo", "init.luau"], "return 1\n")]
    ∧ writesC3 ≠ [(["sync", "ReplicatedStorage", "Foo.luau"], "return 1\n")]
    ∧ (sourcemapC3.children.map fun c =>
        (c.children.getD []).map fun q => (q.name, q.filePaths))
      ≠ [[("Foo", some ["sync/ReplicatedStorage/Foo.luau"])]] :=
  ⟨by decide, by decide, by decide⟩

/-- C3 (amended): the snapshot produces exactly one write, at
sync/ReplicatedStorage/Foo/init.luau with contents "return 1\n", and the
generated index has a single service ReplicatedStorage whose single child
Foo is a ModuleScript with filePaths
["sync/ReplicatedStorage/Foo/init.luau"]. -/
theorem claimC3_amended :
    writesC3 = [(["sync", "ReplicatedStorage", "Foo", "init.luau"], "return 1\n")]
    ∧ sourcemapC3.children.map (fun c => (c.name, c.className))
      = [("ReplicatedStorage", "ReplicatedStorage")]
    ∧ (sourcemapC3.children.map fun c =>
        (c.children.getD []).map fun q => (q.name, q.className, q.filePaths))
      = [[("Foo", "ModuleScript", some ["sync/ReplicatedStorage/Foo/init.luau"])]] :=
  ⟨by decide, by decide, by decide⟩

section JsonLemmas

theorem getLast_append_string (x y : String) (hy : y.data ≠ []) :
    (x ++ y).data.getLast? = y.data.getLast? := by
  rw [String.data_append]
  exact List.getLast?_append_of_ne_nil _ hy

end JsonLemmas

/-- C8 counterexample: writing an empty sourcemap performs a single direct
writeFile whose content ends in the closing brace — there is no trailing
newline and no write-to-temp/rename pair, contradicting the claimed
atomicity and trailing newline. -/
theorem claimC8_counterexample :
    writeSourcemap ⟨"Game", "DataModel", []⟩ "sourcemap.json" true
      = [FsAction.writeFile "sourcemap.json"
          "\x7b\n  \"name\": \"Game\",\n  \"className\": \"DataModel\",\n  \"children\": []\n\x7d"]
    ∧ ("\x7b\n  \"name\": \"Game\",\n  \"className\": \"DataModel\",\n  \"children\": []\n\x7d" : String).data.getLast?
      = some '\x7d'
    ∧ (writeSourcemap ⟨"Game", "DataModel", []⟩ "sourcemap.json" true).all
        (fun a => match a with
          | FsAction.rename _ _ => false
          | _ => true) = true :=
  ⟨by decide, by decide, by decide⟩

/-- C8 (amended): every index write serializes with
JSON.stringify(sourcemap, null, 2) — two-space indent, no trailing newline
(the content always ends with the closing brace) — and performs it as one
direct writeFile of the output path (no temporary file, no rename), preceded
at most by a mkdir of the destination directory. -/
theorem claimC8_amended (s : SRoot) (p : String) (d : Bool) :
    (writeSourcemap s p d).getLast? = some (FsAction.writeFile p (printSRoot s))
    ∧ (writeSourcemap s p d).all
        (fun a => match a with
          | FsAction.rename _ _ => false
          | _ => true) = true
    ∧ (printSRoot s).data.getLast? = some '\x7d' := by
  refine ⟨?_, ?_, ?_⟩
  · unfold writeSourcemap
    split_ifs <;> simp
  · unfold writeSourcemap
    split_ifs <;> simp
  · unfold printSRoot
    rw [getLast_append_string _ _ (by decide)]
    decide

section InsertLemmas

theorem insertLeafReplace_found (nn : SNode) (seg : String) (pre : List SNode)
    (c : SNode) (post : List SNode)
    (hpre : ∀ x ∈ pre, ¬(x.name = seg ∧ x.className = nn.className))
    (hc : c.name = seg ∧ c.className = nn.className) :
    insertLeafReplace nn seg (pre ++ c :: post) = pre ++ nn :: post := by
  induction pre with
  | nil =>
    rw [List.nil_append, List.nil_append, insertLeafReplace, if_pos hc]
  | cons x xs ih =>
    have hx : ¬(x.name = seg ∧ x.className = nn.className) := hpre x (by simp)
    have hrest := ih (fun y hy => hpre y (by simp [hy]))
    rw [List.cons_append, insertLeafReplace, if_neg hx, hrest, List.cons_append]

theorem insertLeafReplace_notfound (nn : SNode) (seg : String) (l : List SNode)
    (h : ∀ x ∈ l, ¬(x.name = seg ∧ x.className = nn.className)) :
    insertLeafReplace nn seg l = l ++ [nn] := by
  induction l with
  | nil => rfl
  | cons x xs ih =>
    have hx : ¬(x.name = seg ∧ x.className = nn.className) := h x (by simp)
    have hrest := ih (fun y hy => h y (by simp [hy]))
    rw [insertLeafReplace, if_neg hx, hrest, List.cons_append]

theorem insertDescend_found (k : List SNode → List SNode) (cls seg : String)
    (pre : List SNode) (c : SNode) (post : List SNode)
    (hpre : ∀ x ∈ pre, x.name ≠ seg) (hc : c.name = seg) :
    insertDescend k cls seg (pre ++ c :: post)
      = pre ++ c.withChildren (some (k (c.children.getD []))) :: post := by
  induction pre with
  | nil =>
    rw [List.nil_append, List.nil_append, insertDescend, if_pos hc]
  | cons x xs ih =>
    have hx : ¬ x.name = seg := hpre x (by simp)
    have hrest := ih (fun y hy => hpre y (by simp [hy]))
    rw [List.cons_append, insertDescend, if_neg hx, hrest, List.cons_append]

theorem insertDescend_notfound (k : List SNode → List SNode) (cls seg : String)
    (l : List SNode) (h : ∀ x ∈ l, x.name ≠ seg) :
    insertDescend k cls seg l = l ++ [SNode.mk seg cls none (some (k []))] := by
  induction l with
  | nil => rfl
  | cons x xs ih =>
    have hx : ¬ x.name = seg := h x (by simp)
    have hrest := ih (fun y hy => h y (by simp [hy]))
    rw [insertDescend, if_neg hx, hrest, List.cons_append]

end InsertLemmas

/-- C7: the incremental index upsert descends along the node's path; a
missing intermediate level is created as a placeholder whose class is the
matching tree node's class (or "Folder" when no tree node matches); at the
leaf it splice-replaces the first entry with the same name and class, else
appends; when isNew it always appends; descending mutates only the first
child with a matching name; and an error during the incremental update makes
the result the full regeneration from the Tree Store. -/
theorem claimC7_incremental_upsert (allNodes : NodeMap) (nn : SNode)
    (consumed : List String) (seg : String) (children : List SNode) :
    (insertNodeAtPath allNodes true nn consumed [seg] children
        = children ++ [nn])
    ∧ (∀ pre c post, children = pre ++ c :: post →
        (∀ x ∈ pre, ¬(x.name = seg ∧ x.className = nn.className)) →
        c.name = seg → c.className = nn.className →
        insertNodeAtPath allNodes false nn consumed [seg] children
          = pre ++ nn :: post)
    ∧ ((∀ x ∈ children, ¬(x.name = seg ∧ x.className = nn.className)) →
        insertNodeAtPath allNodes false nn consumed [seg] children
          = children ++ [nn])
    ∧ (∀ isNew seg2 rest, (∀ x ∈ children, x.name ≠ seg) →
        insertNodeAtPath allNodes isNew nn consumed (seg :: seg2 :: rest) children
          = children ++ [SNode.mk seg
              (snodeTreeClass allNodes (consumed ++ [seg])) none
              (some (insertNodeAtPath allNodes isNew nn (consumed ++ [seg])
                (seg2 :: rest) []))])
    ∧ (∀ isNew seg2 rest pre c post, children = pre ++ c :: post →
        (∀ x ∈ pre, x.name ≠ seg) → c.name = seg →
        insertNodeAtPath allNodes isNew nn consumed (seg :: seg2 :: rest) children
          = pre ++ c.withChildren (some (insertNodeAtPath allNodes isNew nn
              (consumed ++ [seg]) (seg2 :: rest) (c.children.getD []))) :: post)
    ∧ (∀ pfx, (findNodeByPath allNodes pfx = none →
          snodeTreeClass allNodes pfx = "Folder")
        ∧ ∀ pg pn, findNodeByPath allNodes pfx = some (pg, pn) →
            snodeTreeClass allNodes pfx = pn.className)
    ∧ (∀ e mappings, upsertSubtreeResult (Except.error e) allNodes mappings
        = generate allNodes mappings) := by
  refine ⟨?_, ?_, ?_, ?_, ?_, ?_, ?_⟩
  · simp [insertNodeAtPath]
  · intro pre c post hch hpre hcn hcc
    subst hch
    simp only [insertNodeAtPath]
    rw [if_neg (by simp)]
    exact insertLeafReplace_found nn seg pre c post hpre ⟨hcn, hcc⟩
  · intro h
    simp only [insertNodeAtPath]
    rw [if_neg (by simp)]
    exact insertLeafReplace_notfound nn seg children h
  · intro isNew seg2 rest h
    simp only [insertNodeAtPath]
    exact insertDescend_notfound _ _ seg children h
  · intro isNew seg2 rest pre c post hch hpre hcn
    subst hch
    simp only [insertNodeAtPath]
    exact insertDescend_found _ _ seg pre c post hpre hcn
  · intro pfx
    constructor
    · intro h
      unfold snodeTreeClass
      rw [h]
    · intro pg pn h
      unfold snodeTreeClass
      rw [h]
  · intro e mappings
    rfl

/-- Witness for C7 at concrete inputs. -/
theorem claimC7_witness :
    insertNodeAtPath [] false (SNode.mk "B" "ModuleScript" (some ["f"]) none)
        [] ["B"] [SNode.mk "A" "Folder" none none,
                  SNode.mk "B" "ModuleScript" none none]
      = [SNode.mk "A" "Folder" none none,
         SNode.mk "B" "ModuleScript" (some ["f"]) none]
    ∧ insertNodeAtPath [] false (SNode.mk "B" "ModuleScript" (some ["f"]) none)
        [] ["X", "B"] []
      = [SNode.mk "X" "Folder" none
          (some [SNode.mk "B" "ModuleScript" (some ["f"]) none])] := by
  have h := claimC7_incremental_upsert []
    (SNode.mk "B" "ModuleScript" (some ["f"]) none) [] "B"
    [SNode.mk "A" "Folder" none none, SNode.mk "B" "ModuleScript" none none]
  have h2 := claimC7_incremental_upsert []
    (SNode.mk "B" "ModuleScript" (some ["f"]) none) [] "X" []
  constructor
  · exact h.2.1 [SNode.mk "A" "Folder" none none]
      (SNode.mk "B" "ModuleScript" none none) [] rfl
      (by intro x hx; simp at hx; subst hx; simp [SNode.name]) rfl rfl
  · have h3 := (h2.2.2.2.1) false "B" [] (by intro x hx; simp at hx)
    exact h3

section DeleteLemmas

theorem mem_childrenOf_alive (st : TreeManager) (x c : String)
    (h : c ∈ childrenOf st x) : alive st x := by
  unfold childrenOf at h
  unfold alive
  cases hg : mapGet st.nodes x with
  | none => rw [hg] at h; cases h
  | some n => rfl

theorem chain_alive_left {st : TreeManager} {a : String} {l : List String}
    {g : String} (h : Chain st a l g) : alive st a := by
  cases l with
  | nil => exact h.2
  | cons x l' => exact h.1

theorem chain_nodes_alive {st : TreeManager} :
    ∀ (l : List String) (a g : String), Chain st a l g →
      ∀ x, x ∈ a :: l → alive st x := by
  intro l
  induction l with
  | nil =>
    intro a g h x hx
    have hxa : x = a := by simpa using hx
    subst hxa
    exact h.2
  | cons y l' ih =>
    intro a g h x hx
    obtain ⟨ha, hy, hrest⟩ := h
    rcases List.mem_cons.1 hx with h1 | h1
    · subst h1; exact ha
    · exact ih y g hrest x h1

theorem chain_append {st : TreeManager} :
    ∀ (l1 : List String) (a b : String) (l2 : List String) (g : String),
      Chain st a l1 b → Chain st b l2 g → Chain st a (l1 ++ l2) g := by
  intro l1
  induction l1 with
  | nil =>
    intro a b l2 g h1 h2
    obtain ⟨heq, _⟩ := h1
    subst heq
    rw [List.nil_append]
    exact h2
  | cons x l1' ih =>
    intro a b l2 g h1 h2
    obtain ⟨ha, hx, hrest⟩ := h1
    exact ⟨ha, hx, ih x b l2 g hrest h2⟩

theorem reach_trans {st : TreeManager} {a b g : String}
    (h1 : Reach st a b) (h2 : Reach st b g) : Reach st a g := by
  obtain ⟨l1, c1⟩ := h1
  obtain ⟨l2, c2⟩ := h2
  exact ⟨l1 ++ l2, chain_append l1 a b l2 g c1 c2⟩

theorem chain_mono {s1 s2 : TreeManager}
    (hA : ∀ x, alive s1 x → alive s2 x)
    (hE : ∀ x c, alive s1 x → c ∈ childrenOf s1 x → c ∈ childrenOf s2 x) :
    ∀ (l : List String) (a g : String), Chain s1 a l g → Chain s2 a l g := by
  intro l
  induction l with
  | nil => intro a g h; exact ⟨h.1, hA a h.2⟩
  | cons x l' ih =>
    intro a g h
    obtain ⟨ha, hx, hrest⟩ := h
    exact ⟨hA a ha, hE a x ha hx, ih x g hrest⟩

theorem chain_survive {s1 s2 : TreeManager}
    (es : ∀ x c, alive s2 x → alive s2 c → c ∈ childrenOf s1 x →
      c ∈ childrenOf s2 x) :
    ∀ (l : List String) (a g : String), Chain s1 a l g →
      (∀ x, x ∈ a :: l → alive s2 x) → Chain s2 a l g := by
  intro l
  induction l with
  | nil =>
    intro a g h hall
    exact ⟨h.1, hall a (List.mem_cons_self a _)⟩
  | cons x l' ih =>
    intro a g h hall
    obtain ⟨ha, hx, hrest⟩ := h
    refine ⟨hall a (List.mem_cons_self a _),
      es a x (hall a (List.mem_cons_self a _))
        (hall x (List.mem_cons_of_mem a (List.mem_cons_self x l'))) hx, ?_⟩
    exact ih x g hrest (fun y hy => hall y (List.mem_cons_of_mem a hy))

theorem chain_suffix {st : TreeManager} :
    ∀ (l : List String) (a g : String), Chain st a l g → ∀ t, t ∈ a :: l →
      ∃ l', l'.length ≤ l.length ∧ Chain st t l' g := by
  intro l
  induction l with
  | nil =>
    intro a g h t ht
    have hta : t = a := by simpa using ht
    subst hta
    exact ⟨[], Nat.le_refl _, h⟩
  | cons x l' ih =>
    intro a g h t ht
    obtain ⟨ha, hx, hrest⟩ := h
    by_cases hta : t = a
    · subst hta
      exact ⟨x :: l', Nat.le_refl _, ha, hx, hrest⟩
    · have ht2 : t ∈ x :: l' := by
        rcases List.mem_cons.1 ht with h1 | h1
        · exact absurd h1 hta
        · exact h1
      obtain ⟨l2, hle, hch⟩ := ih x g hrest t ht2
      exact ⟨l2, Nat.le_trans hle (Nat.le_succ _), hch⟩

theorem detachRemove_get (st : TreeManager) (g : String) (node : TreeNode)
    (x : String) :
    mapGet (detachRemove st g node).nodes x =
      if x = g then none
      else
        match node.parent with
        | some pg =>
          if x = pg then (mapGet st.nodes x).map (childDel g)
          else mapGet st.nodes x
        | none => mapGet st.nodes x := by
  unfold detachRemove
  cases hp : node.parent with
  | none => dsimp only; rw [mapGet_mapDelete]
  | some pg =>
    dsimp only
    rw [mapGet_mapDelete]
    by_cases hx : x = g
    · rw [if_pos hx, if_pos hx]
    · rw [if_neg hx, if_neg hx, mapGet_updateN]
      by_cases hpg : x = pg
      · subst hpg
        rw [if_pos rfl]
      · rw [if_neg hpg, if_neg hpg]

theorem detachRemove_alive (st : TreeManager) (g : String) (node : TreeNode)
    (x : String) :
    alive (detachRemove st g node) x ↔ (x ≠ g ∧ alive st x) := by
  unfold alive
  rw [detachRemove_get]
  by_cases hx : x = g
  · simp [hx]
  · rw [if_neg hx]
    cases node.parent with
    | none => simp [hx]
    | some pg =>
      dsimp only
      by_cases hpg : x = pg
      · rw [if_pos hpg]; simp [hx]
      · rw [if_neg hpg]; simp [hx]

theorem detachRemove_children_sub (st : TreeManager) (g : String)
    (node : TreeNode) (x c : String)
    (h : c ∈ childrenOf (detachRemove st g node) x) : c ∈ childrenOf st x := by
  unfold childrenOf at h ⊢
  rw [detachRemove_get] at h
  by_cases hx : x = g
  · rw [if_pos hx] at h; simp at h
  · rw [if_neg hx] at h
    cases hp : node.parent with
    | none => rw [hp] at h; exact h
    | some pg =>
      rw [hp] at h
      dsimp only at h
      by_cases hpg : x = pg
      · rw [if_pos hpg] at h
        cases hg : mapGet st.nodes x with
        | none => rw [hg] at h; simp at h
        | some n =>
          rw [hg] at h
          dsimp at h
          dsimp only
          exact (List.mem_filter.1 h).1
      · rw [if_neg hpg] at h; exact h

theorem detachRemove_children_keep (st : TreeManager) (g : String)
    (node : TreeNode) (x c : String) (hx : x ≠ g) (hc : c ≠ g)
    (h : c ∈ childrenOf st x) : c ∈ childrenOf (detachRemove st g node) x := by
  unfold childrenOf at h ⊢
  rw [detachRemove_get, if_neg hx]
  cases node.parent with
  | none => exact h
  | some pg =>
    dsimp only
    by_cases hpg : x = pg
    · rw [if_pos hpg]
      cases hg : mapGet st.nodes x with
      | none => rw [hg] at h; simp at h
      | some n =>
        rw [hg] at h
        dsimp at h ⊢
        exact List.mem_filter.2 ⟨h, by simpa using hc⟩
    · rw [if_neg hpg]; exact h

theorem detachRemove_fields (st : TreeManager) (g : String) (node : TreeNode) :
    ∀ x n', mapGet (detachRemove st g node).nodes x = some n' →
      ∃ n, mapGet st.nodes x = some n ∧ n' = { n with children := n'.children } := by
  intro x n' h
  rw [detachRemove_get] at h
  by_cases hx : x = g
  · rw [if_pos hx] at h; cases h
  · rw [if_neg hx] at h
    cases hp : node.parent with
    | none =>
      rw [hp] at h
      exact ⟨n', h, rfl⟩
    | some pg =>
      rw [hp] at h
      dsimp only at h
      by_cases hpg : x = pg
      · rw [if_pos hpg] at h
        cases hg : mapGet st.nodes x with
        | none => rw [hg] at h; cases h
        | some n =>
          rw [hg] at h
          have he : childDel g n = n' := Option.some.inj h
          refine ⟨n, rfl, ?_⟩
          rw [← he]
          rfl
      · rw [if_neg hpg] at h
        exact ⟨n', h, rfl⟩

theorem detachRemove_len (st : TreeManager) (g : String) (node : TreeNode)
    (hget : mapGet st.nodes g = some node) :
    (detachRemove st g node).nodes.length < st.nodes.length := by
  unfold detachRemove
  cases hp : node.parent with
  | none =>
    exact length_mapDelete_lt st.nodes g (by rw [hget]; rfl)
  | some pg =>
    have h1 : (mapGet (updateN st.nodes pg (childDel g)) g).isSome = true := by
      rw [mapGet_updateN]
      split_ifs with hgp
      · rw [hgp] at hget
        rw [hget]
        rfl
      · rw [hget]
        rfl
    calc (mapDelete (updateN st.nodes pg (childDel g)) g).length
        < (updateN st.nodes pg (childDel g)).length :=
          length_mapDelete_lt _ g h1
      _ = st.nodes.length := length_updateN _ _ _

theorem detachRemove_dead (st : TreeManager) (g : String) (node : TreeNode) :
    ¬ alive (detachRemove st g node) g := by
  rw [detachRemove_alive]
  intro h
  exact h.1 rfl

theorem detachRemove_parent_detached (st : TreeManager) (g : String)
    (node : TreeNode) (pg : String) (hp : node.parent = some pg) :
    g ∉ childrenOf (detachRemove st g node) pg := by
  intro hmem
  unfold childrenOf at hmem
  rw [detachRemove_get, hp] at hmem
  dsimp only at hmem
  by_cases hpg : pg = g
  · rw [if_pos hpg] at hmem; simp at hmem
  · rw [if_neg hpg, if_pos rfl] at hmem
    cases hg : mapGet st.nodes pg with
    | none => rw [hg] at hmem; simp at hmem
    | some n =>
      rw [hg] at hmem
      dsimp at hmem
      have := (List.mem_filter.1 hmem).2
      simp at this

theorem fields_comp {s1 s2 s3 : TreeManager}
    (a : ∀ x n', mapGet s2.nodes x = some n' →
      ∃ n, mapGet s1.nodes x = some n ∧ n' = { n with children := n'.children })
    (b : ∀ x n', mapGet s3.nodes x = some n' →
      ∃ n, mapGet s2.nodes x = some n ∧ n' = { n with children := n'.children }) :
    ∀ x n', mapGet s3.nodes x = some n' →
      ∃ n, mapGet s1.nodes x = some n ∧ n' = { n with children := n'.children } := by
  intro x n3 h3
  obtain ⟨n2, h2, e2⟩ := b x n3 h3
  obtain ⟨n1, h1, e1⟩ := a x n2 h2
  refine ⟨n1, h1, ?_⟩
  cases n1
  cases n2
  cases n3
  simp only [TreeNode.mk.injEq] at e1 e2 ⊢
  obtain ⟨a1, a2, a3, a4, a5, a6, a7⟩ := e2
  obtain ⟨b1, b2, b3, b4, b5, b6, b7⟩ := e1
  refine ⟨?_, ?_, ?_, ?_, ?_, trivial, ?_⟩
  · exact a1.trans b1
  · exact a2.trans b2
  · exact a3.trans b3
  · exact a4.trans b4
  · exact a5.trans b5
  · exact a7.trans b7

theorem deleteList_master (fuel : Nat)
    (ihm : ∀ st g, st.nodes.length ≤ fuel →
      DeleteOk st (deleteFuel fuel st g).1 g) :
    ∀ (cs : List String) (st : TreeManager), st.nodes.length ≤ fuel →
      DeleteListOk st (deleteList fuel st cs) cs := by
  intro cs
  induction cs with
  | nil =>
    intro st hlen
    exact ⟨Nat.le_refl _, fun x h => h, fun x c h => h, fun x c _ _ h => h,
      fun x n' h => ⟨n', h, rfl⟩, fun h hn pg h1 h2 _ _ _ => h2 h1,
      fun h c hc _ => absurd hc (List.not_mem_nil c),
      fun h h1 h2 => absurd h1 h2⟩
  | cons c l ihl =>
    intro st hlen
    have hred : deleteList fuel st (c :: l) =
        deleteList fuel (deleteFuel fuel st c).1 l := rfl
    rw [hred]
    have hA : DeleteOk st (deleteFuel fuel st c).1 c := ihm st c hlen
    have hB : DeleteListOk (deleteFuel fuel st c).1
        (deleteList fuel (deleteFuel fuel st c).1 l) l :=
      ihl (deleteFuel fuel st c).1 (hA.lenLe.trans hlen)
    refine ⟨hB.lenLe.trans hA.lenLe,
      fun x hx => hA.ant x (hB.ant x hx),
      fun x c' hc => hA.shrink x c' (hB.shrink x c' hc),
      ?_, fields_comp hA.fields hB.fields, ?_, ?_, ?_⟩
    · intro x c' hx hc hmem
      exact hB.survive x c' hx hc
        (hA.survive x c' (hB.ant x hx) (hB.ant c' hc) hmem)
    · intro h hn pg h1 h3 hget hpar
      by_cases h2 : alive (deleteFuel fuel st c).1 h
      · obtain ⟨n2, hg2⟩ := Option.isSome_iff_exists.1 h2
        obtain ⟨n1, hg1, he⟩ := hA.fields h n2 hg2
        have hn1 : n1 = hn := by
          rw [hget] at hg1
          exact (Option.some.inj hg1).symm
        have hpar2 : n2.parent = some pg := by
          have hpp : n2.parent = n1.parent := by rw [he]
          rw [hpp, hn1]
          exact hpar
        exact hB.detached h n2 pg h2 h3 hg2 hpar2
      · have hdet := hA.detached h hn pg h1 h2 hget hpar
        intro hmem
        exact hdet (hB.shrink pg h hmem)
    · intro h c' hc' hr
      rcases List.mem_cons.1 hc' with heq | hmem
      · subst heq
        exact fun hal => (hA.reachDead h hr) (hB.ant h hal)
      · obtain ⟨lc, hch⟩ := hr
        by_cases hall : ∀ y, y ∈ c' :: lc → alive (deleteFuel fuel st c).1 y
        · have hch1 : Chain (deleteFuel fuel st c).1 c' lc h :=
            chain_survive (fun x' c'' hx' hc'' hm => hA.survive x' c'' hx' hc'' hm)
              lc c' h hch hall
          exact hB.reachDead h c' hmem ⟨lc, hch1⟩
        · push_neg at hall
          obtain ⟨y, hy, hyDead⟩ := hall
          have hyAlive : alive st y := chain_nodes_alive lc c' h hch y hy
          have hrcy : Reach st c y := hA.deadReach y hyAlive hyDead
          obtain ⟨l2, _, hch2⟩ := chain_suffix lc c' h hch y hy
          have hrch : Reach st c h := reach_trans hrcy ⟨l2, hch2⟩
          exact fun hal => (hA.reachDead h hrch) (hB.ant h hal)
    · intro h h1 h3
      by_cases h2 : alive (deleteFuel fuel st c).1 h
      · obtain ⟨c2, hc2, hr2⟩ := hB.deadReach h h2 h3
        obtain ⟨l2, hch2⟩ := hr2
        have hch : Chain st c2 l2 h :=
          chain_mono hA.ant (fun x' c'' _ hm => hA.shrink x' c'' hm) l2 c2 h hch2
        exact ⟨c2, List.mem_cons_of_mem c hc2, ⟨l2, hch⟩⟩
      · exact ⟨c, List.mem_cons_self c l, hA.deadReach h h1 h2⟩

theorem deleteFuel_master :
    ∀ (fuel : Nat) (st : TreeManager) (g : String),
      st.nodes.length ≤ fuel → DeleteOk st (deleteFuel fuel st g).1 g := by
  intro fuel
  induction fuel with
  | zero =>
    intro st g hlen
    have hnil : st.nodes = [] := List.length_eq_zero.1 (Nat.le_zero.1 hlen)
    refine ⟨Nat.le_refl _, fun x h => h, fun x c h => h, fun x c _ _ h => h,
      fun x n' h => ⟨n', h, rfl⟩, fun h hn pg h1 h2 _ _ _ => h2 h1,
      ?_, fun h h1 h2 => absurd h1 h2⟩
    intro h hr
    obtain ⟨l, hch⟩ := hr
    have hal := chain_alive_left hch
    unfold alive at hal
    rw [hnil] at hal
    simp [mapGet] at hal
  | succ fuel ih =>
    intro st g hlen
    cases hget : mapGet st.nodes g with
    | none =>
      have hred : (deleteFuel (fuel + 1) st g).1 = st := by
        simp [deleteFuel, hget]
      rw [hred]
      refine ⟨Nat.le_refl _, fun x h => h, fun x c h => h, fun x c _ _ h => h,
        fun x n' h => ⟨n', h, rfl⟩, fun h hn pg h1 h2 _ _ _ => h2 h1,
        ?_, fun h h1 h2 => absurd h1 h2⟩
      intro h hr
      obtain ⟨l, hch⟩ := hr
      have hal := chain_alive_left hch
      unfold alive at hal
      rw [hget] at hal
      simp at hal
    | some node =>
      have hred : (deleteFuel (fuel + 1) st g).1 =
          deleteList fuel (detachRemove st g node) node.children := by
        simp [deleteFuel, deleteList, hget]
      rw [hred]
      have hlen2 : (detachRemove st g node).nodes.length ≤ fuel := by
        have hlt := detachRemove_len st g node hget
        omega
      have hB := deleteList_master fuel ih node.children (detachRemove st g node) hlen2
      have hal2 : ∀ x, alive (detachRemove st g node) x ↔ (x ≠ g ∧ alive st x) :=
        detachRemove_alive st g node
      have hsub2 : ∀ x c, c ∈ childrenOf (detachRemove st g node) x →
          c ∈ childrenOf st x :=
        detachRemove_children_sub st g node
      have hkeep2 : ∀ x c, x ≠ g → c ≠ g → c ∈ childrenOf st x →
          c ∈ childrenOf (detachRemove st g node) x :=
        detachRemove_children_keep st g node
      have hfld2 := detachRemove_fields st g node
      have hdead2 : ¬ alive (detachRemove st g node) g := detachRemove_dead st g node
      refine ⟨?_, ?_, ?_, ?_, fields_comp hfld2 hB.fields, ?_, ?_, ?_⟩
      · exact hB.lenLe.trans (Nat.le_of_lt (detachRemove_len st g node hget))
      · intro x hx
        exact ((hal2 x).1 (hB.ant x hx)).2
      · intro x c hc
        exact hsub2 x c (hB.shrink x c hc)
      · intro x c hx hc hmem
        exact hB.survive x c hx hc
          (hkeep2 x c ((hal2 x).1 (hB.ant x hx)).1 ((hal2 c).1 (hB.ant c hc)).1 hmem)
      · intro h hn pg h1 h3 hgeth hpar
        by_cases hhg : h = g
        · subst hhg
          have hnode : hn = node := by
            rw [hget] at hgeth
            exact (Option.some.inj hgeth).symm
          have hp : node.parent = some pg := by
            rw [← hnode]
            exact hpar
          intro hmem
          exact detachRemove_parent_detached st h node pg hp (hB.shrink pg h hmem)
        · have h2 : alive (detachRemove st g node) h := (hal2 h).2 ⟨hhg, h1⟩
          obtain ⟨n2, hg2⟩ := Option.isSome_iff_exists.1 h2
          obtain ⟨n1, hg1, he⟩ := hfld2 h n2 hg2
          have hn1 : n1 = hn := by
            rw [hgeth] at hg1
            exact (Option.some.inj hg1).symm
          have hpar2 : n2.parent = some pg := by
            have hpp : n2.parent = n1.parent := by rw [he]
            rw [hpp, hn1]
            exact hpar
          exact hB.detached h n2 pg h2 h3 hg2 hpar2
      · intro h hr
        obtain ⟨l, hch⟩ := hr
        have main : ∀ (n : Nat) (lc : List String) (t : String),
            lc.length ≤ n → Chain st g lc t →
            ¬ alive (deleteList fuel (detachRemove st g node) node.children) t := by
          intro n
          induction n with
          | zero =>
            intro lc t hl hch2
            have hl0 : lc = [] := List.length_eq_zero.1 (Nat.le_zero.1 hl)
            subst hl0
            obtain ⟨heq, _⟩ := hch2
            subst heq
            intro hal
            exact hdead2 (hB.ant g hal)
          | succ n ihn =>
            intro lc t hl hch2
            cases lc with
            | nil =>
              obtain ⟨heq, _⟩ := hch2
              subst heq
              intro hal
              exact hdead2 (hB.ant g hal)
            | cons x l2 =>
              obtain ⟨hag, hx, hch3⟩ := hch2
              by_cases hmem : g ∈ x :: l2
              · obtain ⟨l3, hle, hch4⟩ := chain_suffix l2 x t hch3 g hmem
                refine ihn l3 t ?_ hch4
                have hl2 : l2.length + 1 ≤ n + 1 := by simpa using hl
                omega
              · have hall2 : ∀ y, y ∈ x :: l2 → alive (detachRemove st g node) y := by
                  intro y hy
                  have hyal : alive st y := chain_nodes_alive l2 x t hch3 y hy
                  have hyg : y ≠ g := fun heq => hmem (heq ▸ hy)
                  exact (hal2 y).2 ⟨hyg, hyal⟩
                have hch_st2 : Chain (detachRemove st g node) x l2 t := by
                  refine chain_survive ?_ l2 x t hch3 hall2
                  intro x' c' hx' hc' hm
                  exact hkeep2 x' c' ((hal2 x').1 hx').1 ((hal2 c').1 hc').1 hm
                have hx_cs : x ∈ node.children := by
                  unfold childrenOf at hx
                  rw [hget] at hx
                  exact hx
                exact hB.reachDead t x hx_cs ⟨l2, hch_st2⟩
        exact main l.length l h (Nat.le_refl _) hch
      · intro h h1 h3
        by_cases hhg : h = g
        · subst hhg
          exact ⟨[], rfl, h1⟩
        · have h2 : alive (detachRemove st g node) h := (hal2 h).2 ⟨hhg, h1⟩
          obtain ⟨c, hc, hr2⟩ := hB.deadReach h h2 h3
          obtain ⟨l2, hch2⟩ := hr2
          have hch : Chain st c l2 h :=
            chain_mono (fun y hy => ((hal2 y).1 hy).2)
              (fun y c' _ hm => hsub2 y c' hm) l2 c h hch2
          have hc_ch : c ∈ childrenOf st g := by
            unfold childrenOf
            rw [hget]
            exact hc
          refine ⟨c :: l2, ?_, hc_ch, hch⟩
          unfold alive
          rw [hget]
          rfl

theorem deleteFuel_some (fuel : Nat) (st : TreeManager) (g : String)
    (node : TreeNode) (hget : mapGet st.nodes g = some node)
    (hfuel : 1 ≤ fuel) : (deleteFuel fuel st g).2 = some node := by
  cases fuel with
  | zero => omega
  | succ n =>
    simp [deleteFuel, hget]

end DeleteLemmas

/-- C6: for every store and every guid present in it,
TreeManager.deleteInstance removes the node and, recursively, exactly the
descendants reachable from it through child edges — every reachable guid is
gone from the index, every guid that disappeared was reachable, and each
removed node is gone from its surviving parent's children list — and the
call returns the removed node. -/
theorem claimC6_delete_recursive (st : TreeManager) (g : String)
    (node : TreeNode) (hget : mapGet st.nodes g = some node) :
    (deleteInstance st g).2 = some node ∧
    (∀ h, Reach st g h → ¬ alive (deleteInstance st g).1 h) ∧
    (∀ h, alive st h → ¬ alive (deleteInstance st g).1 h → Reach st g h) ∧
    (∀ h hn pg, alive st h → ¬ alive (deleteInstance st g).1 h →
      mapGet st.nodes h = some hn → hn.parent = some pg →
      h ∉ childrenOf (deleteInstance st g).1 pg) := by
  have hm := deleteFuel_master st.nodes.length st g (Nat.le_refl _)
  have hfuel : 1 ≤ st.nodes.length := by
    cases hn : st.nodes with
    | nil => rw [hn] at hget; simp [mapGet] at hget
    | cons a l => simp
  exact ⟨deleteFuel_some st.nodes.length st g node hget hfuel,
    hm.reachDead, hm.deadReach, hm.detached⟩

/-- Witness for C6 at the demo store: deleting P returns the stored P node,
and its child Q — reachable from P — is gone afterwards. -/
theorem claimC6_witness :
    mapGet demoStore.nodes "gP"
        = some { guid := "gP", className := "ModuleScript", name := "P",
                 path := ["S", "P"], source := some "p",
                 children := ["gQ"], parent := some "gS" } ∧
    (deleteInstance demoStore "gP").2
        = some { guid := "gP", className := "ModuleScript", name := "P",
                 path := ["S", "P"], source := some "p",
                 children := ["gQ"], parent := some "gS" } ∧
    Reach demoStore "gP" "gQ" ∧
    ¬ alive (deleteInstance demoStore "gP").1 "gQ" := by
  have h := claimC6_delete_recursive demoStore "gP"
    { guid := "gP", className := "ModuleScript", name := "P",
      path := ["S", "P"], source := some "p",
      children := ["gQ"], parent := some "gS" } (by decide)
  have hr : Reach demoStore "gP" "gQ" := ⟨["gQ"], by decide⟩
  exact ⟨by decide, h.1, hr, h.2.1 "gQ" hr⟩

end Azul
